import Mathlib

/-!
Verification of the S-expression front end (lexer `lexer.py` and parser
`parser.py`): a shallow embedding of both components and proofs of the
documented lexical and syntactic properties.

The lexer is embedded as explicit state passing over `LexerState`
(the source text as a `List Char` plus the cursor fields `pos`, `line`,
`column` of the Python `Lexer` object); every `while` loop of the Python
code becomes a structural recursion on the number of characters left
before end of input, the bound every loop respects because each
iteration consumes at least one character (`next_token_ok_state` makes
this precise for whole tokens).
The parser is embedded over the token stream produced by `tokenize`,
with the lookahead as the head of the remaining token list, and a fuel
parameter bounding recursion depth (the Python parser recurses on the
call stack; fuel exhaustion is reported as a distinct outcome, never as
a parse result).
-/

deriving instance DecidableEq for Except

/-- Token kinds, mirroring `TokenType` in lexer.py. -/
inductive TokenType where
  | LPAREN | RPAREN
  | PLUS | MINUS | STAR | SLASH | EQ | LT | GT
  | IF | DO | DEF | DEFN | LET | PRINT | STRFN | LISTFN | NTH | HEAD | TAIL
  | BOOL | INT | STRING | IDENT
  | EOF
deriving DecidableEq, Repr

/-- The enum member name, as used in parser error messages
(`expected_type.name` / `token.type.name` in parser.py). -/
def TokenType.name : TokenType → String
  | .LPAREN => "LPAREN"
  | .RPAREN => "RPAREN"
  | .PLUS => "PLUS"
  | .MINUS => "MINUS"
  | .STAR => "STAR"
  | .SLASH => "SLASH"
  | .EQ => "EQ"
  | .LT => "LT"
  | .GT => "GT"
  | .IF => "IF"
  | .DO => "DO"
  | .DEF => "DEF"
  | .DEFN => "DEFN"
  | .LET => "LET"
  | .PRINT => "PRINT"
  | .STRFN => "STRFN"
  | .LISTFN => "LISTFN"
  | .NTH => "NTH"
  | .HEAD => "HEAD"
  | .TAIL => "TAIL"
  | .BOOL => "BOOL"
  | .INT => "INT"
  | .STRING => "STRING"
  | .IDENT => "IDENT"
  | .EOF => "EOF"

/-- The `Token` dataclass of lexer.py. -/
structure Token where
  type : TokenType
  lexeme : String
  line : Nat
  column : Nat
deriving DecidableEq, Repr

/-- The two lexical error kinds raised as `LexerError` in lexer.py,
with the data the message interpolates (offending character or the
string's starting position). -/
inductive LexError where
  | unexpectedChar (c : Char) (line column : Nat)
  | unterminatedString (line column : Nat)
deriving DecidableEq, Repr

/-- The mutable cursor state of the Python `Lexer` object:
`self.text`, `self.pos`, `self.line`, `self.column`. -/
structure LexerState where
  text : List Char
  pos : Nat
  line : Nat
  column : Nat
deriving DecidableEq, Repr

/-- `Lexer.__init__`: position 0, line 1, column 1. -/
def LexerState.init (input : String) : LexerState :=
  ⟨input.data, 0, 1, 1⟩

/-- `Lexer.peek`: the character at `pos`, or `'\x00'` past the end. -/
def LexerState.peek (s : LexerState) : Char :=
  if s.pos ≥ s.text.length then '\x00' else s.text.getD s.pos '\x00'

/-- `Lexer.peek_next`: the character at `pos + 1`, or `'\x00'` past the end. -/
def LexerState.peek_next (s : LexerState) : Char :=
  if s.pos + 1 ≥ s.text.length then '\x00' else s.text.getD (s.pos + 1) '\x00'

/-- `Lexer.consume`: advance one character; a newline bumps `line` and
resets `column` to 1, any other character bumps `column`; a no-op at
end of input. -/
def LexerState.consume (s : LexerState) : LexerState :=
  if s.pos ≥ s.text.length then s
  else if s.text.getD s.pos '\x00' = '\n' then
    ⟨s.text, s.pos + 1, s.line + 1, 1⟩
  else
    ⟨s.text, s.pos + 1, s.line, s.column + 1⟩

/-- `Lexer.is_ident_start`: `c.isalpha() or c == "_"` (ASCII letters in
this embedding). -/
def is_ident_start (c : Char) : Bool :=
  c.isAlpha || c = '_'

/-- `Lexer.is_ident_part`: `c.isalnum() or c == "_"` (ASCII letters and
digits in this embedding). -/
def is_ident_part (c : Char) : Bool :=
  c.isAlphanum || c = '_'

/-- The whitespace characters skipped by `skip_whitespace_and_comments`. -/
def is_ws (c : Char) : Bool :=
  c = ' ' || c = '\t' || c = '\r' || c = '\n'

/-- The inner `while` of `skip_whitespace_and_comments` that discards
a comment body: consume until the lookahead is a newline or end of
input.  The counter is the number of characters left before end of
input; every iteration consumes one character, and once it is 0 the
lookahead is `'\x00'` and the loop is over anyway. -/
def skip_comment_go : Nat → LexerState → LexerState
  | 0, s => s
  | k+1, s =>
    if s.peek ≠ '\n' ∧ s.peek ≠ '\x00' then skip_comment_go k s.consume else s

def skip_comment (s : LexerState) : LexerState :=
  skip_comment_go (s.text.length - s.pos) s

/-- `Lexer.skip_whitespace_and_comments`: repeatedly skip whitespace
characters and `;;` line comments until neither applies.  Again the
counter is the number of characters left, and each iteration of the
outer `while` consumes at least one character. -/
def skip_whitespace_and_comments_go : Nat → LexerState → LexerState
  | 0, s => s
  | k+1, s =>
    if is_ws s.peek then
      skip_whitespace_and_comments_go k s.consume
    else if s.peek = ';' ∧ s.peek_next = ';' then
      skip_whitespace_and_comments_go k (skip_comment s.consume.consume)
    else s

def skip_whitespace_and_comments (s : LexerState) : LexerState :=
  skip_whitespace_and_comments_go (s.text.length - s.pos) s

/-- The digit-collecting `while` of `Lexer.number_token`: append the
lookahead to the buffer and consume, as long as the lookahead is a
digit (one character consumed per iteration, hence the counter). -/
def number_loop_go : Nat → LexerState → List Char → List Char × LexerState
  | 0, s, buf => (buf, s)
  | k+1, s, buf =>
    if s.peek.isDigit then number_loop_go k s.consume (buf ++ [s.peek])
    else (buf, s)

def number_loop (s : LexerState) (buf : List Char) : List Char × LexerState :=
  number_loop_go (s.text.length - s.pos) s buf

/-- `Lexer.number_token`: greedily consume digits; the lexeme is the
digit run, positions are the ones captured before the first digit. -/
def number_token (s : LexerState) (start_line start_col : Nat) :
    Token × LexerState :=
  let r := number_loop s []
  (⟨.INT, String.mk r.1, start_line, start_col⟩, r.2)

/-- The character-collecting `while` of `Lexer.string_token`: end of
input raises the unterminated-string error carrying the string's
starting position, a closing quote is consumed and ends the literal,
any other character goes into the buffer verbatim.  At counter 0 the
lookahead is `'\x00'`, which is exactly the unterminated case. -/
def string_loop_go (start_line start_col : Nat) :
    Nat → LexerState → List Char → Except LexError (Token × LexerState)
  | 0, _, _ => .error (.unterminatedString start_line start_col)
  | k+1, s, buf =>
    if s.peek = '\x00' then
      .error (.unterminatedString start_line start_col)
    else if s.peek = '"' then
      .ok (⟨.STRING, String.mk buf, start_line, start_col⟩, s.consume)
    else
      string_loop_go start_line start_col k s.consume (buf ++ [s.peek])

def string_loop (s : LexerState) (buf : List Char) (start_line start_col : Nat) :
    Except LexError (Token × LexerState) :=
  string_loop_go start_line start_col (s.text.length - s.pos) s buf

/-- `Lexer.string_token`: consume the opening quote, then collect the
body with `string_loop`. -/
def string_token (s : LexerState) (start_line start_col : Nat) :
    Except LexError (Token × LexerState) :=
  string_loop s.consume [] start_line start_col

/-- The keyword table at the end of `Lexer.ident_or_keyword`: the chain
of equality tests deciding the token type of an identifier-shaped
lexeme; `true` and `false` give `BOOL`, everything unlisted gives
`IDENT`, and the lexeme is preserved as written. -/
def keyword_token (text : String) (start_line start_col : Nat) : Token :=
  if text = "if" then ⟨.IF, text, start_line, start_col⟩
  else if text = "do" then ⟨.DO, text, start_line, start_col⟩
  else if text = "def" then ⟨.DEF, text, start_line, start_col⟩
  else if text = "defn" then ⟨.DEFN, text, start_line, start_col⟩
  else if text = "let" then ⟨.LET, text, start_line, start_col⟩
  else if text = "print" then ⟨.PRINT, text, start_line, start_col⟩
  else if text = "str" then ⟨.STRFN, text, start_line, start_col⟩
  else if text = "list" then ⟨.LISTFN, text, start_line, start_col⟩
  else if text = "nth" then ⟨.NTH, text, start_line, start_col⟩
  else if text = "head" then ⟨.HEAD, text, start_line, start_col⟩
  else if text = "tail" then ⟨.TAIL, text, start_line, start_col⟩
  else if text = "true" ∨ text = "false" then ⟨.BOOL, text, start_line, start_col⟩
  else ⟨.IDENT, text, start_line, start_col⟩

/-- The identifier-part `while` of `Lexer.ident_or_keyword`. -/
def ident_loop_go : Nat → LexerState → List Char → List Char × LexerState
  | 0, s, buf => (buf, s)
  | k+1, s, buf =>
    if is_ident_part s.peek then ident_loop_go k s.consume (buf ++ [s.peek])
    else (buf, s)

def ident_loop (s : LexerState) (buf : List Char) : List Char × LexerState :=
  ident_loop_go (s.text.length - s.pos) s buf

/-- `Lexer.ident_or_keyword`: take the start character, greedily
consume identifier-part characters, then classify via the keyword
table. -/
def ident_or_keyword (s : LexerState) (start_line start_col : Nat) :
    Token × LexerState :=
  let r := ident_loop s.consume [s.peek]
  (keyword_token (String.mk r.1) start_line start_col, r.2)

/-- The classification part of `Lexer.next_token` (everything after the
call to `skip_whitespace_and_comments`): capture the start position,
then dispatch on the first remaining character exactly as the `if`
chain in lexer.py does. -/
def next_token_core (s1 : LexerState) : Except LexError (Token × LexerState) :=
  let start_line := s1.line
  let start_col := s1.column
  let c := s1.peek
  if c = '\x00' then .ok (⟨.EOF, "<EOF>", start_line, start_col⟩, s1)
  else if c = '(' then .ok (⟨.LPAREN, "(", start_line, start_col⟩, s1.consume)
  else if c = ')' then .ok (⟨.RPAREN, ")", start_line, start_col⟩, s1.consume)
  else if c = '+' then .ok (⟨.PLUS, "+", start_line, start_col⟩, s1.consume)
  else if c = '-' then .ok (⟨.MINUS, "-", start_line, start_col⟩, s1.consume)
  else if c = '*' then .ok (⟨.STAR, "*", start_line, start_col⟩, s1.consume)
  else if c = '/' then .ok (⟨.SLASH, "/", start_line, start_col⟩, s1.consume)
  else if c = '=' then .ok (⟨.EQ, "=", start_line, start_col⟩, s1.consume)
  else if c = '<' then .ok (⟨.LT, "<", start_line, start_col⟩, s1.consume)
  else if c = '>' then .ok (⟨.GT, ">", start_line, start_col⟩, s1.consume)
  else if c.isDigit then .ok (number_token s1 start_line start_col)
  else if c = '"' then string_token s1 start_line start_col
  else if is_ident_start c then .ok (ident_or_keyword s1 start_line start_col)
  else .error (.unexpectedChar c s1.line s1.column)

/-- `Lexer.next_token`: skip whitespace and comments, then classify the
first remaining character. -/
def next_token (s : LexerState) : Except LexError (Token × LexerState) :=
  next_token_core (skip_whitespace_and_comments s)

/-- `Lexer.tokenize`: pull tokens with `next_token` until an `EOF`
token is produced, returning the full list inclusive of the terminal
token; a lexical error aborts with no token list.  Every non-`EOF`
token consumes at least one character (`next_token_ok_state`), so the
loop runs at most `text.length - pos + 1` times — the count the
wrapper supplies; the 0 case is unreachable for that count. -/
def tokenize_go : Nat → LexerState → Except LexError (List Token)
  | 0, _ => .ok []
  | k+1, s =>
    match next_token s with
    | .error e => .error e
    | .ok (t, s') =>
      if t.type = TokenType.EOF then .ok [t]
      else
        match tokenize_go k s' with
        | .error e => .error e
        | .ok ts => .ok (t :: ts)

def tokenize (s : LexerState) : Except LexError (List Token) :=
  tokenize_go (s.text.length - s.pos + 1) s

/-- Tokenizing a source string from the initial lexer state, as
`Lexer(code).tokenize()` does. -/
def tokenize_str (input : String) : Except LexError (List Token) :=
  tokenize (LexerState.init input)

/-- The `Node` dataclass of parser.py: a kind tag, an optional string
payload, and the ordered list of children (defaulting to `None` →
`[]`). -/
inductive Node where
  | mk (kind : String) (value : Option String) (children : List Node)

def Node.kind : Node → String
  | .mk k _ _ => k

def Node.value : Node → Option String
  | .mk _ v _ => v

def Node.children : Node → List Node
  | .mk _ _ cs => cs

mutual

/-- Structural equality test for `Node` (written out because the
nested `List Node` keeps Lean from deriving `DecidableEq`). -/
def Node.beq : Node → Node → Bool
  | .mk k1 v1 cs1, .mk k2 v2 cs2 =>
    k1 == k2 && v1 == v2 && Node.beqs cs1 cs2

def Node.beqs : List Node → List Node → Bool
  | [], [] => true
  | a :: as, b :: bs => Node.beq a b && Node.beqs as bs
  | _, _ => false

end

mutual

def Node.beq_eq : ∀ a b : Node, Node.beq a b = true → a = b
  | .mk k1 v1 cs1, .mk k2 v2 cs2, h => by
    simp only [Node.beq, Bool.and_eq_true, beq_iff_eq] at h
    obtain ⟨⟨h1, h2⟩, h3⟩ := h
    rw [h1, h2, Node.beqs_eq cs1 cs2 h3]

def Node.beqs_eq : ∀ as bs : List Node, Node.beqs as bs = true → as = bs
  | [], [], _ => rfl
  | a :: as, b :: bs, h => by
    simp only [Node.beqs, Bool.and_eq_true] at h
    rw [Node.beq_eq a b h.1, Node.beqs_eq as bs h.2]
  | [], _ :: _, h => by simp [Node.beqs] at h
  | _ :: _, [], h => by simp [Node.beqs] at h

end

mutual

def Node.beq_refl : ∀ a : Node, Node.beq a a = true
  | .mk k v cs => by
    simp only [Node.beq, Bool.and_eq_true]
    refine ⟨⟨?_, ?_⟩, Node.beqs_refl cs⟩ <;> simp

def Node.beqs_refl : ∀ as : List Node, Node.beqs as as = true
  | [] => rfl
  | a :: as => by
    simp only [Node.beqs, Bool.and_eq_true]
    exact ⟨Node.beq_refl a, Node.beqs_refl as⟩

end

instance : DecidableEq Node := fun a b =>
  if h : Node.beq a b = true then isTrue (Node.beq_eq a b h)
  else isFalse (fun he => h (he ▸ Node.beq_refl a))

mutual

def Node.reprString : Node → String
  | .mk k v cs =>
    "Node(" ++ k ++ ", " ++
      (match v with | some s => s | none => "-") ++
      ", [" ++ Node.reprStrings cs ++ "])"

def Node.reprStrings : List Node → String
  | [] => ""
  | [a] => Node.reprString a
  | a :: as => Node.reprString a ++ ", " ++ Node.reprStrings as

end

instance : Repr Node := ⟨fun n _ => Node.reprString n⟩

/-- The data carried by a `ParserError` raised in `Parser.error`: the
expectation message and the token actually found (whose type name,
lexeme and position the Python message interpolates). -/
structure ParserError where
  msg : String
  found : Token
deriving DecidableEq, Repr

/-- Outcome of a fuel-indexed parser function: a parsed value plus the
remaining token stream, a syntax error, or fuel exhaustion (the latter
never occurs for the fuel the pipeline supplies; it only bounds the
recursion that Python runs on the call stack). -/
inductive PResult (α : Type) where
  | ok (a : α) (rest : List Token)
  | err (e : ParserError)
  | fuelOut
deriving DecidableEq, Repr

/-- The parser's lookahead: the head of the remaining token stream.
Past the end of the stream the lexer would keep returning `EOF`
(`next_token_after_eof` below); the default mirrors that. -/
def lookahead (ts : List Token) : Token :=
  ts.headD ⟨TokenType.EOF, "<EOF>", 0, 0⟩

/-- `Parser.consume`: discard the current lookahead and move to the
next token. -/
def advance (ts : List Token) : List Token :=
  ts.tail

/-- `Parser.match`: if the lookahead has the expected type, consume and
return it; otherwise fail with `erwartet <type name>` and the found
token. -/
def pmatch (expected : TokenType) (ts : List Token) :
    Except ParserError (Token × List Token) :=
  if (lookahead ts).type = expected then .ok (lookahead ts, advance ts)
  else .error ⟨"erwartet " ++ expected.name, lookahead ts⟩

/-- `Parser.parse_atom`: `atom : INT | STRING | BOOL | IDENT`, one
token consumed, the literal/identifier lexeme stored as the node
value. -/
def parse_atom (ts : List Token) : Except ParserError (Node × List Token) :=
  let tok := lookahead ts
  if tok.type = TokenType.INT then
    .ok (.mk "IntLiteral" (some tok.lexeme) [], advance ts)
  else if tok.type = TokenType.STRING then
    .ok (.mk "StringLiteral" (some tok.lexeme) [], advance ts)
  else if tok.type = TokenType.BOOL then
    .ok (.mk "BoolLiteral" (some tok.lexeme) [], advance ts)
  else if tok.type = TokenType.IDENT then
    .ok (.mk "Identifier" (some tok.lexeme) [], advance ts)
  else .error ⟨"Atom erwartet", tok⟩

/-- The parameter-collecting `while` of `Parser.parse_defn_expr`: zero
or more consecutive `IDENT` tokens, each becoming a `Param` node. -/
def parse_params (ts : List Token) : List Node × List Token :=
  match ts with
  | [] => ([], [])
  | tok :: rest =>
    if tok.type = TokenType.IDENT then
      let r := parse_params rest
      (Node.mk "Param" (some tok.lexeme) [] :: r.1, r.2)
    else ([], tok :: rest)

/-- The operator/function-name token types accepted at the head of
`Parser.parse_app_expr`. -/
def app_op_types : List TokenType :=
  [TokenType.PLUS, TokenType.MINUS, TokenType.STAR, TokenType.SLASH,
   TokenType.EQ, TokenType.LT, TokenType.GT,
   TokenType.PRINT, TokenType.STRFN, TokenType.LISTFN,
   TokenType.NTH, TokenType.HEAD, TokenType.TAIL,
   TokenType.IDENT]

mutual

/-- `Parser.parse_expr`: `expr : atom | listExpr`, dispatching on the
lookahead type; otherwise `Ausdruck erwartet`. -/
def parse_expr : Nat → List Token → PResult Node
  | 0, _ => .fuelOut
  | fuel+1, ts =>
    let t := (lookahead ts).type
    if t = TokenType.INT ∨ t = TokenType.STRING ∨
        t = TokenType.BOOL ∨ t = TokenType.IDENT then
      match parse_atom ts with
      | .ok (n, rest) => .ok n rest
      | .error e => .err e
    else if t = TokenType.LPAREN then
      parse_list_expr fuel ts
    else .err ⟨"Ausdruck erwartet", lookahead ts⟩

/-- `Parser.parse_list_expr`: `listExpr : LPAREN form RPAREN`, one
`ListExpr` node with exactly the inner form as child. -/
def parse_list_expr : Nat → List Token → PResult Node
  | 0, _ => .fuelOut
  | fuel+1, ts =>
    match pmatch TokenType.LPAREN ts with
    | .error e => .err e
    | .ok (_, ts1) =>
      match parse_form fuel ts1 with
      | .ok inside ts2 =>
        match pmatch TokenType.RPAREN ts2 with
        | .error e => .err e
        | .ok (_, ts3) => .ok (Node.mk "ListExpr" none [inside]) ts3
      | .err e => .err e
      | .fuelOut => .fuelOut

/-- `Parser.parse_form`: dispatch on the keyword lookahead; anything
that is not one of the five special forms falls through to
`parse_app_expr`. -/
def parse_form : Nat → List Token → PResult Node
  | 0, _ => .fuelOut
  | fuel+1, ts =>
    let t := (lookahead ts).type
    if t = TokenType.IF then parse_if_expr fuel ts
    else if t = TokenType.DO then parse_do_expr fuel ts
    else if t = TokenType.DEF then parse_def_expr fuel ts
    else if t = TokenType.DEFN then parse_defn_expr fuel ts
    else if t = TokenType.LET then parse_let_expr fuel ts
    else parse_app_expr fuel ts

/-- `Parser.parse_if_expr`: `ifExpr : IF expr expr expr?`; the else
branch is parsed exactly when the token after the then branch is not
`RPAREN`. -/
def parse_if_expr : Nat → List Token → PResult Node
  | 0, _ => .fuelOut
  | fuel+1, ts =>
    match pmatch TokenType.IF ts with
    | .error e => .err e
    | .ok (_, ts0) =>
      match parse_expr fuel ts0 with
      | .ok cond ts1 =>
        match parse_expr fuel ts1 with
        | .ok then_branch ts2 =>
          if (lookahead ts2).type ≠ TokenType.RPAREN then
            match parse_expr fuel ts2 with
            | .ok else_branch ts3 =>
              .ok (Node.mk "IfExpr" none [cond, then_branch, else_branch]) ts3
            | .err e => .err e
            | .fuelOut => .fuelOut
          else .ok (Node.mk "IfExpr" none [cond, then_branch]) ts2
        | .err e => .err e
        | .fuelOut => .fuelOut
      | .err e => .err e
      | .fuelOut => .fuelOut

/-- `Parser.parse_do_expr`: `doExpr : DO expr+`; a `)` immediately
after `do` is the error `mindestens einen Ausdruck erwartet`, then
expressions are read until `)` (or `EOF`) follows. -/
def parse_do_expr : Nat → List Token → PResult Node
  | 0, _ => .fuelOut
  | fuel+1, ts =>
    match pmatch TokenType.DO ts with
    | .error e => .err e
    | .ok (_, ts0) =>
      if (lookahead ts0).type = TokenType.RPAREN then
        .err ⟨"mindestens einen Ausdruck erwartet", lookahead ts0⟩
      else
        match parse_exprs_until_rparen fuel ts0 with
        | .ok exprs rest => .ok (Node.mk "DoExpr" none exprs) rest
        | .err e => .err e
        | .fuelOut => .fuelOut

/-- `Parser.parse_def_expr`: `defExpr : DEF IDENT expr`; the bound name
is the node value, the bound expression the single child. -/
def parse_def_expr : Nat → List Token → PResult Node
  | 0, _ => .fuelOut
  | fuel+1, ts =>
    match pmatch TokenType.DEF ts with
    | .error e => .err e
    | .ok (_, ts0) =>
      match pmatch TokenType.IDENT ts0 with
      | .error e => .err e
      | .ok (name, ts1) =>
        match parse_expr fuel ts1 with
        | .ok value rest =>
          .ok (Node.mk "DefExpr" (some name.lexeme) [value]) rest
        | .err e => .err e
        | .fuelOut => .fuelOut

/-- `Parser.parse_defn_expr`:
`defnExpr : DEFN IDENT LPAREN paramListOpt RPAREN expr`; children are
the `ParamList` node and the body, the function name is the value. -/
def parse_defn_expr : Nat → List Token → PResult Node
  | 0, _ => .fuelOut
  | fuel+1, ts =>
    match pmatch TokenType.DEFN ts with
    | .error e => .err e
    | .ok (_, ts0) =>
      match pmatch TokenType.IDENT ts0 with
      | .error e => .err e
      | .ok (name, ts1) =>
        match pmatch TokenType.LPAREN ts1 with
        | .error e => .err e
        | .ok (_, ts2) =>
          let pr := parse_params ts2
          match pmatch TokenType.RPAREN pr.2 with
          | .error e => .err e
          | .ok (_, ts3) =>
            match parse_expr fuel ts3 with
            | .ok body rest =>
              .ok (Node.mk "DefnExpr" (some name.lexeme)
                [Node.mk "ParamList" none pr.1, body]) rest
            | .err e => .err e
            | .fuelOut => .fuelOut

/-- The binding-collecting `while` of `Parser.parse_let_expr`: pairs of
an `IDENT` and a bound expression, each becoming a `LetBinding` node
with the name as value and the expression as single child. -/
def parse_let_bindings : Nat → List Token → PResult (List Node)
  | 0, _ => .fuelOut
  | fuel+1, ts =>
    if (lookahead ts).type = TokenType.IDENT then
      let name := (lookahead ts).lexeme
      match parse_expr fuel (advance ts) with
      | .ok value rest =>
        match parse_let_bindings fuel rest with
        | .ok bs rest2 =>
          .ok (Node.mk "LetBinding" (some name) [value] :: bs) rest2
        | .err e => .err e
        | .fuelOut => .fuelOut
      | .err e => .err e
      | .fuelOut => .fuelOut
    else .ok [] ts

/-- `Parser.parse_let_expr`:
`letExpr : LET LPAREN (IDENT expr)* RPAREN expr`. -/
def parse_let_expr : Nat → List Token → PResult Node
  | 0, _ => .fuelOut
  | fuel+1, ts =>
    match pmatch TokenType.LET ts with
    | .error e => .err e
    | .ok (_, ts0) =>
      match pmatch TokenType.LPAREN ts0 with
      | .error e => .err e
      | .ok (_, ts1) =>
        match parse_let_bindings fuel ts1 with
        | .ok bindings rest =>
          match pmatch TokenType.RPAREN rest with
          | .error e => .err e
          | .ok (_, ts2) =>
            match parse_expr fuel ts2 with
            | .ok body rest2 =>
              .ok (Node.mk "LetExpr" none
                [Node.mk "LetBindings" none bindings, body]) rest2
            | .err e => .err e
            | .fuelOut => .fuelOut
        | .err e => .err e
        | .fuelOut => .fuelOut

/-- `Parser.parse_app_expr`: `appExpr : operator expr*`; the operator
token must be one of the operator/builtin/identifier types, then
arguments are read until `)` or `EOF` follows. -/
def parse_app_expr : Nat → List Token → PResult Node
  | 0, _ => .fuelOut
  | fuel+1, ts =>
    let op := lookahead ts
    if op.type ∈ app_op_types then
      match parse_exprs_until_rparen fuel (advance ts) with
      | .ok args rest => .ok (Node.mk "AppExpr" (some op.lexeme) args) rest
      | .err e => .err e
      | .fuelOut => .fuelOut
    else .err ⟨"Operator oder Funktionsname erwartet", op⟩

/-- The argument/body-collecting `while` shared verbatim by
`Parser.parse_do_expr` and `Parser.parse_app_expr`: parse expressions
while the lookahead is neither `RPAREN` nor `EOF`. -/
def parse_exprs_until_rparen : Nat → List Token → PResult (List Node)
  | 0, _ => .fuelOut
  | fuel+1, ts =>
    if (lookahead ts).type ≠ TokenType.RPAREN ∧
        (lookahead ts).type ≠ TokenType.EOF then
      match parse_expr fuel ts with
      | .ok e rest =>
        match parse_exprs_until_rparen fuel rest with
        | .ok es rest2 => .ok (e :: es) rest2
        | .err e2 => .err e2
        | .fuelOut => .fuelOut
      | .err e => .err e
      | .fuelOut => .fuelOut
    else .ok [] ts

/-- The top-level `while` of `Parser.parse`: expressions until the
lookahead is `EOF`. -/
def parse_program_exprs : Nat → List Token → PResult (List Node)
  | 0, _ => .fuelOut
  | fuel+1, ts =>
    if (lookahead ts).type ≠ TokenType.EOF then
      match parse_expr fuel ts with
      | .ok e rest =>
        match parse_program_exprs fuel rest with
        | .ok es rest2 => .ok (e :: es) rest2
        | .err e2 => .err e2
        | .fuelOut => .fuelOut
      | .err e => .err e
      | .fuelOut => .fuelOut
    else .ok [] ts

end

/-- `Parser.parse`: `program : expr* EOF`, returning the `Program`
root. -/
def parse_program (fuel : Nat) (ts : List Token) : PResult Node :=
  match parse_program_exprs fuel ts with
  | .ok exprs rest => .ok (Node.mk "Program" none exprs) rest
  | .err e => .err e
  | .fuelOut => .fuelOut

/-- Outcome of running the full pipeline `Parser(Lexer(text)).parse()`. -/
inductive ParseOutcome where
  | tree (n : Node)
  | lexFail (e : LexError)
  | synFail (e : ParserError)
  | fuelOut
deriving DecidableEq, Repr

/-- The full pipeline: tokenize, then parse.  The fuel bounds only the
recursion depth (which Python runs on the call stack); it is ample for
the token count, and a `fuelOut` outcome is never a parse result. -/
def parse_source (input : String) : ParseOutcome :=
  match tokenize_str input with
  | .error e => .lexFail e
  | .ok ts =>
    match parse_program (10 * ts.length + 10) ts with
    | .ok n _ => .tree n
    | .err e => .synFail e
    | .fuelOut => .fuelOut

mutual

/-- Every node of a tree: the node itself and all descendants, in
preorder. -/
def Node.nodes : Node → List Node
  | .mk k v cs => .mk k v cs :: Node.nodesList cs

def Node.nodesList : List Node → List Node
  | [] => []
  | n :: ns => n.nodes ++ Node.nodesList ns

end

/-- The per-node structural arity invariants stated in the spec's data
model: a `ListExpr` has exactly 1 child; a `DefnExpr` has exactly 2
children, the first a `ParamList` all of whose children are `Param`
nodes, and carries a function name as its value; a `DoExpr` has at
least one child. -/
def nodeInv (n : Node) : Bool :=
  (if n.kind = "ListExpr" then decide (n.children.length = 1) else true) &&
  (if n.kind = "DefnExpr" then
      decide (n.children.length = 2) && n.value.isSome &&
      (match n.children with
       | p :: _ =>
         (if p.kind = "ParamList" then
            p.children.all (fun c => c.kind == "Param")
          else false)
       | [] => false)
    else true) &&
  (if n.kind = "DoExpr" then !n.children.isEmpty else true)

/-- All nodes of the tree rooted at `n` satisfy `nodeInv`. -/
def treeOk (n : Node) : Bool :=
  n.nodes.all nodeInv

/-- Texts consisting only of whitespace characters and `;;` line
comments (each comment body free of newlines, running to the newline
that ends it or to end of input). -/
inductive WsOnly : List Char → Prop where
  | nil : WsOnly []
  | ws (c : Char) (cs : List Char) : is_ws c = true → WsOnly cs →
      WsOnly (c :: cs)
  | comment (body cs : List Char) :
      (∀ ch ∈ body, ch ≠ '\n' ∧ ch ≠ '\x00') →
      (cs.head? = some '\n' ∨ cs = []) →
      WsOnly cs →
      WsOnly (';' :: ';' :: (body ++ cs))

theorem consume_text (s : LexerState) : s.consume.text = s.text := by
  unfold LexerState.consume
  split
  · rfl
  · split <;> rfl

theorem consume_pos_mono (s : LexerState) : s.pos ≤ s.consume.pos := by
  unfold LexerState.consume
  split
  · exact le_refl _
  · split <;> exact Nat.le_succ _

theorem consume_pos_of_lt (s : LexerState) (h : s.pos < s.text.length) :
    s.consume.pos = s.pos + 1 := by
  unfold LexerState.consume
  rw [if_neg (by omega)]
  split <;> rfl

theorem peek_ne_nul (s : LexerState) (h : s.peek ≠ '\x00') :
    s.pos < s.text.length := by
  unfold LexerState.peek at h
  by_contra hge
  simp [Nat.le_of_not_lt hge] at h

theorem consume_measure (s : LexerState) (h : s.pos < s.text.length) :
    s.consume.text.length - s.consume.pos < s.text.length - s.pos := by
  rw [consume_text, consume_pos_of_lt s h]
  omega

theorem is_ws_ne_nul (c : Char) (h : is_ws c) : c ≠ '\x00' := by
  simp [is_ws] at h
  rcases h with ((h | h) | h) | h <;> subst h <;> decide

theorem skip_comment_go_text (k : Nat) :
    ∀ s, (skip_comment_go k s).text = s.text := by
  induction k with
  | zero => intro s; rfl
  | succ k ih =>
    intro s
    simp only [skip_comment_go]
    split
    · rw [ih, consume_text]
    · rfl

theorem skip_comment_go_pos_mono (k : Nat) :
    ∀ s, s.pos ≤ (skip_comment_go k s).pos := by
  induction k with
  | zero => intro s; exact le_refl _
  | succ k ih =>
    intro s
    simp only [skip_comment_go]
    split
    · exact le_trans (consume_pos_mono s) (ih s.consume)
    · exact le_refl _

theorem skip_comment_text (s : LexerState) : (skip_comment s).text = s.text :=
  skip_comment_go_text _ s

theorem skip_comment_pos_mono (s : LexerState) : s.pos ≤ (skip_comment s).pos :=
  skip_comment_go_pos_mono _ s

theorem skip_comment_measure (s : LexerState) :
    s.text.length - s.pos ≥ (skip_comment s).text.length - (skip_comment s).pos := by
  rw [skip_comment_text]
  have := skip_comment_pos_mono s
  omega

theorem skip_ws_go_text (k : Nat) :
    ∀ s, (skip_whitespace_and_comments_go k s).text = s.text := by
  induction k with
  | zero => intro s; rfl
  | succ k ih =>
    intro s
    simp only [skip_whitespace_and_comments_go]
    split
    · rw [ih, consume_text]
    · split
      · rw [ih, skip_comment_text, consume_text, consume_text]
      · rfl

theorem skip_ws_go_pos_mono (k : Nat) :
    ∀ s, s.pos ≤ (skip_whitespace_and_comments_go k s).pos := by
  induction k with
  | zero => intro s; exact le_refl _
  | succ k ih =>
    intro s
    simp only [skip_whitespace_and_comments_go]
    split
    · exact le_trans (consume_pos_mono s) (ih s.consume)
    · split
      · refine le_trans ?_ (ih (skip_comment s.consume.consume))
        exact le_trans (consume_pos_mono s)
          (le_trans (consume_pos_mono s.consume) (skip_comment_pos_mono _))
      · exact le_refl _

theorem skip_ws_text (s : LexerState) :
    (skip_whitespace_and_comments s).text = s.text :=
  skip_ws_go_text _ s

theorem skip_ws_pos_mono (s : LexerState) :
    s.pos ≤ (skip_whitespace_and_comments s).pos :=
  skip_ws_go_pos_mono _ s

theorem number_loop_go_state (k : Nat) :
    ∀ s buf, (number_loop_go k s buf).2.text = s.text ∧
      s.pos ≤ (number_loop_go k s buf).2.pos := by
  induction k with
  | zero => intro s buf; exact ⟨rfl, le_refl _⟩
  | succ k ih =>
    intro s buf
    simp only [number_loop_go]
    split
    · refine ⟨?_, ?_⟩
      · rw [(ih s.consume (buf ++ [s.peek])).1, consume_text]
      · exact le_trans (consume_pos_mono s) (ih s.consume (buf ++ [s.peek])).2
    · exact ⟨rfl, le_refl _⟩

theorem number_loop_state (s : LexerState) (buf : List Char) :
    (number_loop s buf).2.text = s.text ∧ s.pos ≤ (number_loop s buf).2.pos :=
  number_loop_go_state _ s buf

theorem ident_loop_go_state (k : Nat) :
    ∀ s buf, (ident_loop_go k s buf).2.text = s.text ∧
      s.pos ≤ (ident_loop_go k s buf).2.pos := by
  induction k with
  | zero => intro s buf; exact ⟨rfl, le_refl _⟩
  | succ k ih =>
    intro s buf
    simp only [ident_loop_go]
    split
    · refine ⟨?_, ?_⟩
      · rw [(ih s.consume (buf ++ [s.peek])).1, consume_text]
      · exact le_trans (consume_pos_mono s) (ih s.consume (buf ++ [s.peek])).2
    · exact ⟨rfl, le_refl _⟩

theorem ident_loop_state (s : LexerState) (buf : List Char) :
    (ident_loop s buf).2.text = s.text ∧ s.pos ≤ (ident_loop s buf).2.pos :=
  ident_loop_go_state _ s buf

theorem string_loop_go_ok_state (l c : Nat) (k : Nat) :
    ∀ s buf t s', string_loop_go l c k s buf = .ok (t, s') →
      s'.text = s.text ∧ s.pos ≤ s'.pos := by
  induction k with
  | zero => intro s buf t s' h; exact absurd h (by simp [string_loop_go])
  | succ k ih =>
    intro s buf t s' h
    simp only [string_loop_go] at h
    split at h
    · exact absurd h (by simp)
    · split at h
      · simp only [Except.ok.injEq, Prod.mk.injEq] at h
        rw [← h.2]
        exact ⟨consume_text s, consume_pos_mono s⟩
      · have hr := ih s.consume (buf ++ [s.peek]) t s' h
        exact ⟨by rw [hr.1, consume_text], le_trans (consume_pos_mono s) hr.2⟩

theorem string_loop_ok_state (s : LexerState) (buf : List Char) (l c : Nat)
    (t : Token) (s' : LexerState)
    (h : string_loop s buf l c = .ok (t, s')) :
    s'.text = s.text ∧ s.pos ≤ s'.pos :=
  string_loop_go_ok_state l c _ s buf t s' h

theorem number_loop_pos_of_digit (s : LexerState) (buf : List Char)
    (h : s.peek.isDigit) : s.pos < (number_loop s buf).2.pos := by
  have h1 : s.pos < s.text.length :=
    peek_ne_nul s (by intro hn; rw [hn] at h; simp at h)
  obtain ⟨j, hj⟩ : ∃ j, s.text.length - s.pos = j + 1 :=
    ⟨s.text.length - s.pos - 1, by omega⟩
  rw [number_loop, hj]
  simp only [number_loop_go]
  rw [if_pos h]
  have h2 := (number_loop_go_state j s.consume (buf ++ [s.peek])).2
  have h3 := consume_pos_of_lt s h1
  omega

theorem ident_loop_pos_of_part (s : LexerState) (buf : List Char)
    (h : is_ident_part s.peek) : s.pos < (ident_loop s buf).2.pos := by
  have h1 : s.pos < s.text.length :=
    peek_ne_nul s (by intro hn; rw [hn] at h; simp [is_ident_part] at h)
  obtain ⟨j, hj⟩ : ∃ j, s.text.length - s.pos = j + 1 :=
    ⟨s.text.length - s.pos - 1, by omega⟩
  rw [ident_loop, hj]
  simp only [ident_loop_go]
  rw [if_pos h]
  have h2 := (ident_loop_go_state j s.consume (buf ++ [s.peek])).2
  have h3 := consume_pos_of_lt s h1
  omega

theorem next_token_core_ok_state (s1 : LexerState) (t : Token) (s' : LexerState)
    (h : next_token_core s1 = .ok (t, s')) :
    s'.text = s1.text ∧ s1.pos ≤ s'.pos ∧
      (t.type ≠ TokenType.EOF →
        s1.pos < s'.pos ∧ s1.pos < s1.text.length) := by
  simp only [next_token_core] at h
  -- end of input: no consumption, but the token type is EOF
  by_cases h0 : s1.peek = '\x00'
  · rw [if_pos h0] at h
    simp only [Except.ok.injEq, Prod.mk.injEq] at h
    rw [← h.2]
    exact ⟨rfl, le_refl _, fun ht => absurd (by rw [← h.1]) ht⟩
  rw [if_neg h0] at h
  by_cases h1 : s1.peek = '('
  · rw [if_pos h1] at h
    simp only [Except.ok.injEq, Prod.mk.injEq] at h
    rw [← h.2]
    have hlt := peek_ne_nul s1 h0
    have hc1 := consume_pos_of_lt _ hlt
    exact ⟨consume_text s1, by omega, fun _ => by omega⟩
  rw [if_neg h1] at h
  by_cases h2 : s1.peek = ')'
  · rw [if_pos h2] at h
    simp only [Except.ok.injEq, Prod.mk.injEq] at h
    rw [← h.2]
    have hlt := peek_ne_nul s1 h0
    have hc1 := consume_pos_of_lt _ hlt
    exact ⟨consume_text s1, by omega, fun _ => by omega⟩
  rw [if_neg h2] at h
  by_cases h3 : s1.peek = '+'
  · rw [if_pos h3] at h
    simp only [Except.ok.injEq, Prod.mk.injEq] at h
    rw [← h.2]
    have hlt := peek_ne_nul s1 h0
    have hc1 := consume_pos_of_lt _ hlt
    exact ⟨consume_text s1, by omega, fun _ => by omega⟩
  rw [if_neg h3] at h
  by_cases h4 : s1.peek = '-'
  · rw [if_pos h4] at h
    simp only [Except.ok.injEq, Prod.mk.injEq] at h
    rw [← h.2]
    have hlt := peek_ne_nul s1 h0
    have hc1 := consume_pos_of_lt _ hlt
    exact ⟨consume_text s1, by omega, fun _ => by omega⟩
  rw [if_neg h4] at h
  by_cases h5 : s1.peek = '*'
  · rw [if_pos h5] at h
    simp only [Except.ok.injEq, Prod.mk.injEq] at h
    rw [← h.2]
    have hlt := peek_ne_nul s1 h0
    have hc1 := consume_pos_of_lt _ hlt
    exact ⟨consume_text s1, by omega, fun _ => by omega⟩
  rw [if_neg h5] at h
  by_cases h6 : s1.peek = '/'
  · rw [if_pos h6] at h
    simp only [Except.ok.injEq, Prod.mk.injEq] at h
    rw [← h.2]
    have hlt := peek_ne_nul s1 h0
    have hc1 := consume_pos_of_lt _ hlt
    exact ⟨consume_text s1, by omega, fun _ => by omega⟩
  rw [if_neg h6] at h
  by_cases h7 : s1.peek = '='
  · rw [if_pos h7] at h
    simp only [Except.ok.injEq, Prod.mk.injEq] at h
    rw [← h.2]
    have hlt := peek_ne_nul s1 h0
    have hc1 := consume_pos_of_lt _ hlt
    exact ⟨consume_text s1, by omega, fun _ => by omega⟩
  rw [if_neg h7] at h
  by_cases h8 : s1.peek = '<'
  · rw [if_pos h8] at h
    simp only [Except.ok.injEq, Prod.mk.injEq] at h
    rw [← h.2]
    have hlt := peek_ne_nul s1 h0
    have hc1 := consume_pos_of_lt _ hlt
    exact ⟨consume_text s1, by omega, fun _ => by omega⟩
  rw [if_neg h8] at h
  by_cases h9 : s1.peek = '>'
  · rw [if_pos h9] at h
    simp only [Except.ok.injEq, Prod.mk.injEq] at h
    rw [← h.2]
    have hlt := peek_ne_nul s1 h0
    have hc1 := consume_pos_of_lt _ hlt
    exact ⟨consume_text s1, by omega, fun _ => by omega⟩
  rw [if_neg h9] at h
  -- number literal
  by_cases h10 : s1.peek.isDigit = true
  · rw [if_pos h10] at h
    simp only [Except.ok.injEq, Prod.mk.injEq, number_token] at h
    rw [← h.2]
    have hlt := peek_ne_nul s1 h0
    have hpp := number_loop_pos_of_digit s1 [] h10
    have hnt := (number_loop_state s1 []).1
    exact ⟨hnt, by omega, fun _ => by omega⟩
  rw [if_neg h10] at h
  -- string literal
  by_cases h11 : s1.peek = '"'
  · rw [if_pos h11] at h
    simp only [string_token] at h
    obtain ⟨hst, hsp⟩ := string_loop_ok_state _ _ _ _ _ _ h
    have hlt := peek_ne_nul s1 h0
    have hc1 := consume_pos_of_lt _ hlt
    exact ⟨by rw [hst, consume_text], by omega, fun _ => by omega⟩
  rw [if_neg h11] at h
  -- identifier or keyword
  by_cases h12 : is_ident_start s1.peek = true
  · rw [if_pos h12] at h
    simp only [Except.ok.injEq, Prod.mk.injEq, ident_or_keyword] at h
    rw [← h.2]
    have hlt := peek_ne_nul s1 h0
    have hc1 := consume_pos_of_lt _ hlt
    have hit := ident_loop_state s1.consume [s1.peek]
    exact ⟨by rw [hit.1, consume_text], by (have h9 := hit.2; omega),
      fun _ => by (have h9 := hit.2; omega)⟩
  rw [if_neg h12] at h
  -- unexpected character: contradiction with a successful result
  exact absurd h (by simp)

theorem next_token_ok_state (s : LexerState) (t : Token) (s' : LexerState)
    (h : next_token s = .ok (t, s')) :
    s'.text = s.text ∧ s.pos ≤ s'.pos ∧
      (t.type ≠ TokenType.EOF →
        s.text.length - s'.pos < s.text.length - s.pos) := by
  unfold next_token at h
  have hts : (skip_whitespace_and_comments s).text = s.text := skip_ws_text s
  have hps : s.pos ≤ (skip_whitespace_and_comments s).pos := skip_ws_pos_mono s
  generalize hG : skip_whitespace_and_comments s = s1 at h hts hps
  obtain ⟨h1, h2, h3⟩ := next_token_core_ok_state s1 t s' h
  refine ⟨by rw [h1, hts], le_trans hps h2, fun ht => ?_⟩
  obtain ⟨h4, h5⟩ := h3 ht
  have hlen : s1.text.length = s.text.length := by rw [hts]
  omega

theorem tokenize_go_eof_aux (k : Nat) :
    ∀ (s : LexerState) (ts : List Token),
    s.text.length - s.pos < k → tokenize_go k s = .ok ts →
    ∃ front last, ts = front ++ [last] ∧ last.type = TokenType.EOF ∧
      ∀ t ∈ front, t.type ≠ TokenType.EOF := by
  induction k with
  | zero => intro s ts hb; omega
  | succ k ih =>
    intro s ts hb h
    simp only [tokenize_go] at h
    split at h
    · exact absurd h (by simp)
    · rename_i t s' hnt
      split at h
      · rename_i ht
        simp only [Except.ok.injEq] at h
        exact ⟨[], t, by rw [← h]; rfl, ht, by intro t' ht'; simp at ht'⟩
      · rename_i ht
        split at h
        · exact absurd h (by simp)
        · rename_i ts' hts'
          simp only [Except.ok.injEq] at h
          have hs := next_token_ok_state s t s' hnt
          have hlt : s'.text.length - s'.pos < k := by
            rw [hs.1]
            have := hs.2.2 ht
            omega
          obtain ⟨front', last', he, hl, hne⟩ := ih s' ts' hlt hts'
          refine ⟨t :: front', last', by rw [← h, he]; rfl, hl, ?_⟩
          intro t' ht'
          rcases List.mem_cons.mp ht' with h1 | h1
          · rw [h1]; exact ht
          · exact hne t' h1

theorem tokenize_ok_eof (s : LexerState) (ts : List Token)
    (h : tokenize s = .ok ts) :
    ∃ front last, ts = front ++ [last] ∧ last.type = TokenType.EOF ∧
      ∀ t ∈ front, t.type ≠ TokenType.EOF :=
  tokenize_go_eof_aux (s.text.length - s.pos + 1) s ts (by omega) h

theorem nodesList_all (p : Node → Bool) :
    ∀ cs : List Node, (Node.nodesList cs).all p = cs.all (fun c => c.nodes.all p)
  | [] => rfl
  | c :: cs => by
    simp only [Node.nodesList, List.all_append, List.all_cons]
    rw [nodesList_all p cs]

theorem treeOk_mk (k : String) (v : Option String) (cs : List Node) :
    treeOk (Node.mk k v cs) =
      (nodeInv (Node.mk k v cs) && cs.all treeOk) := by
  simp only [treeOk, Node.nodes, List.all_cons]
  rw [nodesList_all]
  rfl

theorem self_mem_nodes (n : Node) : n ∈ n.nodes := by
  cases n with
  | mk k v cs => simp [Node.nodes]

theorem treeOk_mem (n : Node) (h : treeOk n = true) :
    ∀ m ∈ n.nodes, nodeInv m = true := by
  intro m hm
  exact List.all_eq_true.mp h m hm

theorem nodeInv_listExpr (n : Node) (h : nodeInv n = true)
    (hk : n.kind = "ListExpr") : n.children.length = 1 := by
  simp only [nodeInv, hk, if_pos, Bool.and_eq_true, decide_eq_true_eq] at h
  exact h.1.1

theorem nodeInv_defnExpr (n : Node) (h : nodeInv n = true)
    (hk : n.kind = "DefnExpr") :
    n.children.length = 2 ∧ n.value.isSome = true ∧
      ∃ p rest, n.children = p :: rest ∧ p.kind = "ParamList" ∧
        ∀ q ∈ p.children, q.kind = "Param" := by
  have hk2 : n.kind ≠ "ListExpr" := by rw [hk]; decide
  simp only [nodeInv, hk, hk2, if_pos, if_neg, Bool.and_eq_true,
    decide_eq_true_eq] at h
  obtain ⟨⟨-, ⟨⟨hlen, hval⟩, hp⟩⟩, -⟩ := h
  refine ⟨hlen, hval, ?_⟩
  split at hp
  · rename_i p rest heq
    split at hp
    · rename_i hpk
      refine ⟨p, rest, heq, hpk, ?_⟩
      intro q hq
      have := List.all_eq_true.mp hp q hq
      simpa using this
    · exact absurd hp (by simp)
  · exact absurd hp (by simp)

theorem nodeInv_doExpr (n : Node) (h : nodeInv n = true)
    (hk : n.kind = "DoExpr") : n.children ≠ [] := by
  have hk2 : n.kind ≠ "ListExpr" := by rw [hk]; decide
  have hk3 : n.kind ≠ "DefnExpr" := by rw [hk]; decide
  simp only [nodeInv, hk, hk2, hk3, if_pos, if_neg, Bool.and_eq_true] at h
  intro he
  rw [he] at h
  simp at h

theorem treeOk_mk_of (k : String) (v : Option String) (cs : List Node)
    (hk1 : k ≠ "ListExpr") (hk2 : k ≠ "DefnExpr") (hk3 : k ≠ "DoExpr")
    (hc : cs.all treeOk = true) : treeOk (Node.mk k v cs) = true := by
  rw [treeOk_mk]
  simp [nodeInv, Node.kind, hk1, hk2, hk3, hc]

theorem parse_atom_treeOk (ts : List Token) (n : Node) (ts' : List Token)
    (h : parse_atom ts = .ok (n, ts')) : treeOk n = true := by
  simp only [parse_atom] at h
  split_ifs at h with h1 h2 h3 h4 <;>
    first
    | (simp only [Except.ok.injEq, Prod.mk.injEq] at h
       rw [← h.1]
       apply treeOk_mk_of <;> first | decide | rfl)
    | exact absurd h (by simp)

theorem parse_params_nodes : ∀ ts : List Token, ∀ p ∈ (parse_params ts).1,
    p.kind = "Param" ∧ p.children = [] := by
  intro ts
  induction ts with
  | nil => intro p hp; simp [parse_params] at hp
  | cons tok rest ih =>
    intro p hp
    simp only [parse_params] at hp
    split at hp
    · rcases List.mem_cons.mp hp with h1 | h1
      · rw [h1]; exact ⟨rfl, rfl⟩
      · exact ih p h1
    · simp at hp

theorem pmatch_ok (e : TokenType) (ts : List Token) (tok : Token)
    (ts1 : List Token) (h : pmatch e ts = .ok (tok, ts1)) :
    (lookahead ts).type = e ∧ tok = lookahead ts ∧ ts1 = advance ts := by
  unfold pmatch at h
  split at h
  · simp only [Except.ok.injEq, Prod.mk.injEq] at h
    exact ⟨by assumption, h.1.symm, h.2.symm⟩
  · exact absurd h (by simp)

theorem treeOk_defn (params : List Node) (body : Node) (nm : String)
    (hbody : treeOk body = true)
    (hplist : treeOk (Node.mk "ParamList" none params) = true)
    (hx : ∀ x ∈ params, x.kind = "Param") :
    treeOk (Node.mk "DefnExpr" (some nm)
      [Node.mk "ParamList" none params, body]) = true := by
  rw [treeOk_mk, Bool.and_eq_true]
  refine ⟨?_, by simp [hplist, hbody]⟩
  simp [nodeInv, Node.kind, Node.children, Node.value]
  intro x hx2
  exact hx x hx2

/-- Invariant preservation for every parser rule, by induction on the
fuel: every node a rule returns satisfies `treeOk`.  For `parse_form`
and `parse_do_expr` the statement is conditional on the next token
being `)` (the only context in which their result is used — inside
`parse_list_expr` before its `expect(')')`): `parse_do_expr` alone can
return an empty `DoExpr` when it stops at `EOF`, and that result never
survives the enclosing `expect(')')`. -/
theorem parse_inv (fuel : Nat) :
    (∀ ts n ts', parse_expr fuel ts = .ok n ts' → treeOk n = true) ∧
    (∀ ts n ts', parse_list_expr fuel ts = .ok n ts' → treeOk n = true) ∧
    (∀ ts n ts', parse_form fuel ts = .ok n ts' →
      (lookahead ts').type = TokenType.RPAREN → treeOk n = true) ∧
    (∀ ts n ts', parse_if_expr fuel ts = .ok n ts' → treeOk n = true) ∧
    (∀ ts n ts', parse_do_expr fuel ts = .ok n ts' →
      (lookahead ts').type = TokenType.RPAREN → treeOk n = true) ∧
    (∀ ts n ts', parse_def_expr fuel ts = .ok n ts' → treeOk n = true) ∧
    (∀ ts n ts', parse_defn_expr fuel ts = .ok n ts' → treeOk n = true) ∧
    (∀ ts n ts', parse_let_expr fuel ts = .ok n ts' → treeOk n = true) ∧
    (∀ ts ns ts', parse_let_bindings fuel ts = .ok ns ts' →
      ∀ n ∈ ns, treeOk n = true) ∧
    (∀ ts n ts', parse_app_expr fuel ts = .ok n ts' → treeOk n = true) ∧
    (∀ ts ns ts', parse_exprs_until_rparen fuel ts = .ok ns ts' →
      (∀ n ∈ ns, treeOk n = true) ∧ (ns = [] → ts' = ts)) ∧
    (∀ ts ns ts', parse_program_exprs fuel ts = .ok ns ts' →
      ∀ n ∈ ns, treeOk n = true) := by
  induction fuel with
  | zero =>
    refine ⟨?_, ?_, ?_, ?_, ?_, ?_, ?_, ?_, ?_, ?_, ?_, ?_⟩ <;>
      intro ts x ts' h <;>
      first
      | exact absurd h (by simp [parse_expr])
      | exact absurd h (by simp [parse_list_expr])
      | exact absurd h (by simp [parse_form])
      | exact absurd h (by simp [parse_if_expr])
      | exact absurd h (by simp [parse_do_expr])
      | exact absurd h (by simp [parse_def_expr])
      | exact absurd h (by simp [parse_defn_expr])
      | exact absurd h (by simp [parse_let_expr])
      | exact absurd h (by simp [parse_let_bindings])
      | exact absurd h (by simp [parse_app_expr])
      | exact absurd h (by simp [parse_exprs_until_rparen])
      | exact absurd h (by simp [parse_program_exprs])
  | succ fuel ih =>
    obtain ⟨ihe, ihl, ihf, ihi, ihd, ihdef, ihdefn, ihlet, ihbind, ihapp,
      ihseq, ihprog⟩ := ih
    refine ⟨?_, ?_, ?_, ?_, ?_, ?_, ?_, ?_, ?_, ?_, ?_, ?_⟩
    -- parse_expr
    · intro ts n ts' h
      simp only [parse_expr] at h
      split_ifs at h with h1 h2
      · split at h
        · rename_i n0 rest heq
          simp only [PResult.ok.injEq] at h
          rw [← h.1]
          exact parse_atom_treeOk ts n0 rest heq
        · exact absurd h (by simp)
      · exact ihl ts n ts' h
    -- parse_list_expr
    · intro ts n ts' h
      simp only [parse_list_expr] at h
      split at h
      · exact absurd h (by simp)
      · rename_i tok ts1 heq1
        split at h
        · rename_i inside ts2 heq2
          split at h
          · exact absurd h (by simp)
          · rename_i tok2 ts3 heq3
            simp only [PResult.ok.injEq] at h
            rw [← h.1]
            have hrp := (pmatch_ok _ _ _ _ heq3).1
            have hin := ihf ts1 inside ts2 heq2 hrp
            rw [treeOk_mk]
            simp [nodeInv, Node.kind, Node.children, hin]
        · exact absurd h (by simp)
        · exact absurd h (by simp)
    -- parse_form
    · intro ts n ts' h hrp
      simp only [parse_form] at h
      split_ifs at h with h1 h2 h3 h4 h5
      · exact ihi ts n ts' h
      · exact ihd ts n ts' h hrp
      · exact ihdef ts n ts' h
      · exact ihdefn ts n ts' h
      · exact ihlet ts n ts' h
      · exact ihapp ts n ts' h
    -- parse_if_expr
    · intro ts n ts' h
      simp only [parse_if_expr] at h
      split at h
      · exact absurd h (by simp)
      · rename_i tok ts0 heq0
        split at h
        · rename_i cond ts1 heq1
          split at h
          · rename_i thb ts2 heq2
            split at h
            · split at h
              · rename_i elb ts3 heq3
                simp only [PResult.ok.injEq] at h
                rw [← h.1]
                apply treeOk_mk_of <;> try decide
                simp [ihe _ _ _ heq1, ihe _ _ _ heq2, ihe _ _ _ heq3]
              · exact absurd h (by simp)
              · exact absurd h (by simp)
            · simp only [PResult.ok.injEq] at h
              rw [← h.1]
              apply treeOk_mk_of <;> try decide
              simp [ihe _ _ _ heq1, ihe _ _ _ heq2]
          · exact absurd h (by simp)
          · exact absurd h (by simp)
        · exact absurd h (by simp)
        · exact absurd h (by simp)
    -- parse_do_expr
    · intro ts n ts' h hrp
      simp only [parse_do_expr] at h
      split at h
      · exact absurd h (by simp)
      · rename_i tok ts0 heq0
        split at h
        · exact absurd h (by simp)
        · rename_i hnrp
          split at h
          · rename_i exprs rest heq1
            simp only [PResult.ok.injEq] at h
            obtain ⟨hn, hrest⟩ := h
            obtain ⟨hall, hemp⟩ := ihseq ts0 exprs rest heq1
            have hne : exprs ≠ [] := by
              intro he
              apply hnrp
              rw [← hemp he, hrest]
              exact hrp
            have hb : exprs.all treeOk = true := List.all_eq_true.mpr hall
            rw [← hn, treeOk_mk]
            rcases exprs with _ | ⟨e0, es⟩
            · exact absurd rfl hne
            · simp only [List.all_cons, Bool.and_eq_true] at hb
              simp [nodeInv, Node.kind, Node.children, hb.1,
                List.all_eq_true.mpr fun x hx =>
                  List.all_eq_true.mp hb.2 x hx]
          · exact absurd h (by simp)
          · exact absurd h (by simp)
    -- parse_def_expr
    · intro ts n ts' h
      simp only [parse_def_expr] at h
      split at h
      · exact absurd h (by simp)
      · rename_i tok ts0 heq0
        split at h
        · exact absurd h (by simp)
        · rename_i name ts1 heq1
          split at h
          · rename_i value rest heqv
            simp only [PResult.ok.injEq] at h
            rw [← h.1]
            apply treeOk_mk_of <;> try decide
            simp [ihe _ _ _ heqv]
          · exact absurd h (by simp)
          · exact absurd h (by simp)
    -- parse_defn_expr
    · intro ts n ts' h
      simp only [parse_defn_expr] at h
      split at h
      · exact absurd h (by simp)
      · rename_i tok ts0 heq0
        split at h
        · exact absurd h (by simp)
        · rename_i name ts1 heq1
          split at h
          · exact absurd h (by simp)
          · rename_i tok2 ts2 heq2
            split at h
            · exact absurd h (by simp)
            · rename_i tok3 ts3 heq3
              split at h
              · rename_i body rest heqb
                simp only [PResult.ok.injEq] at h
                rw [← h.1]
                have hbody := ihe _ _ _ heqb
                have hps := parse_params_nodes ts2
                have hptree : (parse_params ts2).1.all treeOk = true := by
                  apply List.all_eq_true.mpr
                  intro p hp
                  obtain ⟨hk, hc⟩ := hps p hp
                  rcases p with ⟨pk, pv, pcs⟩
                  simp only [Node.kind] at hk
                  simp only [Node.children] at hc
                  subst hk
                  subst hc
                  exact treeOk_mk_of _ _ _ (by decide) (by decide)
                    (by decide) rfl
                have hpkinds :
                    (parse_params ts2).1.all (fun c => c.kind == "Param") = true := by
                  apply List.all_eq_true.mpr
                  intro p hp
                  simpa using (hps p hp).1
                have hplist :
                    treeOk (Node.mk "ParamList" none (parse_params ts2).1) = true := by
                  rw [treeOk_mk]
                  simp [nodeInv, Node.kind, Node.children, hptree]
                exact treeOk_defn _ _ _ hbody hplist
                  (fun x hx => (hps x hx).1)
              · exact absurd h (by simp)
              · exact absurd h (by simp)
    -- parse_let_expr
    · intro ts n ts' h
      simp only [parse_let_expr] at h
      split at h
      · exact absurd h (by simp)
      · rename_i tok ts0 heq0
        split at h
        · exact absurd h (by simp)
        · rename_i tok2 ts1 heq1
          split at h
          · rename_i bindings rest heqbs
            split at h
            · exact absurd h (by simp)
            · rename_i tok3 ts2 heq2
              split at h
              · rename_i body rest2 heqb
                simp only [PResult.ok.injEq] at h
                rw [← h.1]
                have hbind :
                    treeOk (Node.mk "LetBindings" none bindings) = true := by
                  apply treeOk_mk_of _ _ _ (by decide) (by decide) (by decide)
                  exact List.all_eq_true.mpr
                    (fun b hb => ihbind _ _ _ heqbs b hb)
                apply treeOk_mk_of <;> try decide
                simp [hbind, ihe _ _ _ heqb]
              · exact absurd h (by simp)
              · exact absurd h (by simp)
          · exact absurd h (by simp)
          · exact absurd h (by simp)
    -- parse_let_bindings
    · intro ts ns ts' h
      simp only [parse_let_bindings] at h
      split at h
      · split at h
        · rename_i value rest heqv
          split at h
          · rename_i bs rest2 heqb
            simp only [PResult.ok.injEq] at h
            obtain ⟨hn, -⟩ := h
            rw [← hn]
            intro b hb
            rcases List.mem_cons.mp hb with h1 | h1
            · rw [h1]
              apply treeOk_mk_of <;> try decide
              simp [ihe _ _ _ heqv]
            · exact ihbind _ _ _ heqb b h1
          · exact absurd h (by simp)
          · exact absurd h (by simp)
        · exact absurd h (by simp)
        · exact absurd h (by simp)
      · simp only [PResult.ok.injEq] at h
        rw [← h.1]
        intro b hb
        simp at hb
    -- parse_app_expr
    · intro ts n ts' h
      simp only [parse_app_expr] at h
      split at h
      · split at h
        · rename_i args rest heq
          simp only [PResult.ok.injEq] at h
          rw [← h.1]
          apply treeOk_mk_of <;> try decide
          exact List.all_eq_true.mpr (ihseq _ _ _ heq).1
        · exact absurd h (by simp)
        · exact absurd h (by simp)
      · exact absurd h (by simp)
    -- parse_exprs_until_rparen
    · intro ts ns ts' h
      simp only [parse_exprs_until_rparen] at h
      split at h
      · split at h
        · rename_i e rest heqe
          split at h
          · rename_i es rest2 heqs
            simp only [PResult.ok.injEq] at h
            obtain ⟨hn, hrest⟩ := h
            refine ⟨?_, ?_⟩
            · rw [← hn]
              intro x hx
              rcases List.mem_cons.mp hx with h1 | h1
              · rw [h1]; exact ihe _ _ _ heqe
              · exact (ihseq _ _ _ heqs).1 x h1
            · rw [← hn]
              intro hc
              simp at hc
          · exact absurd h (by simp)
          · exact absurd h (by simp)
        · exact absurd h (by simp)
        · exact absurd h (by simp)
      · simp only [PResult.ok.injEq] at h
        refine ⟨?_, fun _ => h.2.symm⟩
        rw [← h.1]
        intro x hx
        simp at hx
    -- parse_program_exprs
    · intro ts ns ts' h
      simp only [parse_program_exprs] at h
      split at h
      · split at h
        · rename_i e rest heqe
          split at h
          · rename_i es rest2 heqs
            simp only [PResult.ok.injEq] at h
            obtain ⟨hn, -⟩ := h
            rw [← hn]
            intro x hx
            rcases List.mem_cons.mp hx with h1 | h1
            · rw [h1]; exact ihe _ _ _ heqe
            · exact ihprog _ _ _ heqs x h1
          · exact absurd h (by simp)
          · exact absurd h (by simp)
        · exact absurd h (by simp)
        · exact absurd h (by simp)
      · simp only [PResult.ok.injEq] at h
        rw [← h.1]
        intro x hx
        simp at hx

theorem string_loop_go_ok_token (l c : Nat) (k : Nat) :
    ∀ s buf t s', string_loop_go l c k s buf = .ok (t, s') →
      t.type = TokenType.STRING ∧ t.line = l ∧ t.column = c := by
  induction k with
  | zero => intro s buf t s' h; exact absurd h (by simp [string_loop_go])
  | succ k ih =>
    intro s buf t s' h
    simp only [string_loop_go] at h
    split at h
    · exact absurd h (by simp)
    · split at h
      · simp only [Except.ok.injEq, Prod.mk.injEq] at h
        rw [← h.1]
        exact ⟨rfl, rfl, rfl⟩
      · exact ih s.consume (buf ++ [s.peek]) t s' h

theorem string_loop_go_err (l c : Nat) (k : Nat) :
    ∀ s buf e, string_loop_go l c k s buf = .error e →
      e = .unterminatedString l c := by
  induction k with
  | zero =>
    intro s buf e h
    simp only [string_loop_go, Except.error.injEq] at h
    exact h.symm
  | succ k ih =>
    intro s buf e h
    simp only [string_loop_go] at h
    split at h
    · simp only [Except.error.injEq] at h
      exact h.symm
    · split at h
      · exact absurd h (by simp)
      · exact ih s.consume (buf ++ [s.peek]) e h

theorem keyword_token_shape (w : String) (l c : Nat) :
    ∃ ty, keyword_token w l c = ⟨ty, w, l, c⟩ ∧ ty ≠ TokenType.EOF := by
  unfold keyword_token
  by_cases hk0 : w = "if"
  · rw [if_pos hk0]; exact ⟨_, rfl, by simp⟩
  rw [if_neg hk0]
  by_cases hk1 : w = "do"
  · rw [if_pos hk1]; exact ⟨_, rfl, by simp⟩
  rw [if_neg hk1]
  by_cases hk2 : w = "def"
  · rw [if_pos hk2]; exact ⟨_, rfl, by simp⟩
  rw [if_neg hk2]
  by_cases hk3 : w = "defn"
  · rw [if_pos hk3]; exact ⟨_, rfl, by simp⟩
  rw [if_neg hk3]
  by_cases hk4 : w = "let"
  · rw [if_pos hk4]; exact ⟨_, rfl, by simp⟩
  rw [if_neg hk4]
  by_cases hk5 : w = "print"
  · rw [if_pos hk5]; exact ⟨_, rfl, by simp⟩
  rw [if_neg hk5]
  by_cases hk6 : w = "str"
  · rw [if_pos hk6]; exact ⟨_, rfl, by simp⟩
  rw [if_neg hk6]
  by_cases hk7 : w = "list"
  · rw [if_pos hk7]; exact ⟨_, rfl, by simp⟩
  rw [if_neg hk7]
  by_cases hk8 : w = "nth"
  · rw [if_pos hk8]; exact ⟨_, rfl, by simp⟩
  rw [if_neg hk8]
  by_cases hk9 : w = "head"
  · rw [if_pos hk9]; exact ⟨_, rfl, by simp⟩
  rw [if_neg hk9]
  by_cases hk10 : w = "tail"
  · rw [if_pos hk10]; exact ⟨_, rfl, by simp⟩
  rw [if_neg hk10]
  by_cases hkb : w = "true" ∨ w = "false"
  · rw [if_pos hkb]; exact ⟨_, rfl, by simp⟩
  rw [if_neg hkb]
  exact ⟨_, rfl, by simp⟩

/-- A token returned by the classification step carries the line and
column captured before its first character was consumed, and an `EOF`
token is returned exactly at end of input, with the state unchanged. -/
theorem next_token_core_token (s1 : LexerState) (t : Token) (s' : LexerState)
    (h : next_token_core s1 = .ok (t, s')) :
    t.line = s1.line ∧ t.column = s1.column ∧
      (t.type = TokenType.EOF →
        s1.peek = '\x00' ∧ t = ⟨TokenType.EOF, "<EOF>", s1.line, s1.column⟩ ∧
        s' = s1) := by
  simp only [next_token_core] at h
  by_cases h0 : s1.peek = '\x00'
  · rw [if_pos h0] at h
    simp only [Except.ok.injEq, Prod.mk.injEq] at h
    rw [← h.1, ← h.2]
    exact ⟨rfl, rfl, fun _ => ⟨h0, rfl, rfl⟩⟩
  rw [if_neg h0] at h
  by_cases h1 : s1.peek = '('
  · rw [if_pos h1] at h
    simp only [Except.ok.injEq, Prod.mk.injEq] at h
    rw [← h.1]
    exact ⟨rfl, rfl, fun ht => absurd ht (by simp)⟩
  rw [if_neg h1] at h
  by_cases h2 : s1.peek = ')'
  · rw [if_pos h2] at h
    simp only [Except.ok.injEq, Prod.mk.injEq] at h
    rw [← h.1]
    exact ⟨rfl, rfl, fun ht => absurd ht (by simp)⟩
  rw [if_neg h2] at h
  by_cases h3 : s1.peek = '+'
  · rw [if_pos h3] at h
    simp only [Except.ok.injEq, Prod.mk.injEq] at h
    rw [← h.1]
    exact ⟨rfl, rfl, fun ht => absurd ht (by simp)⟩
  rw [if_neg h3] at h
  by_cases h4 : s1.peek = '-'
  · rw [if_pos h4] at h
    simp only [Except.ok.injEq, Prod.mk.injEq] at h
    rw [← h.1]
    exact ⟨rfl, rfl, fun ht => absurd ht (by simp)⟩
  rw [if_neg h4] at h
  by_cases h5 : s1.peek = '*'
  · rw [if_pos h5] at h
    simp only [Except.ok.injEq, Prod.mk.injEq] at h
    rw [← h.1]
    exact ⟨rfl, rfl, fun ht => absurd ht (by simp)⟩
  rw [if_neg h5] at h
  by_cases h6 : s1.peek = '/'
  · rw [if_pos h6] at h
    simp only [Except.ok.injEq, Prod.mk.injEq] at h
    rw [← h.1]
    exact ⟨rfl, rfl, fun ht => absurd ht (by simp)⟩
  rw [if_neg h6] at h
  by_cases h7 : s1.peek = '='
  · rw [if_pos h7] at h
    simp only [Except.ok.injEq, Prod.mk.injEq] at h
    rw [← h.1]
    exact ⟨rfl, rfl, fun ht => absurd ht (by simp)⟩
  rw [if_neg h7] at h
  by_cases h8 : s1.peek = '<'
  · rw [if_pos h8] at h
    simp only [Except.ok.injEq, Prod.mk.injEq] at h
    rw [← h.1]
    exact ⟨rfl, rfl, fun ht => absurd ht (by simp)⟩
  rw [if_neg h8] at h
  by_cases h9 : s1.peek = '>'
  · rw [if_pos h9] at h
    simp only [Except.ok.injEq, Prod.mk.injEq] at h
    rw [← h.1]
    exact ⟨rfl, rfl, fun ht => absurd ht (by simp)⟩
  rw [if_neg h9] at h
  by_cases h10 : s1.peek.isDigit = true
  · rw [if_pos h10] at h
    simp only [Except.ok.injEq, Prod.mk.injEq, number_token] at h
    rw [← h.1]
    exact ⟨rfl, rfl, fun ht => absurd ht (by simp)⟩
  rw [if_neg h10] at h
  by_cases h11 : s1.peek = '"'
  · rw [if_pos h11] at h
    simp only [string_token, string_loop] at h
    obtain ⟨hty, hl, hc⟩ := string_loop_go_ok_token _ _ _ _ _ _ _ h
    exact ⟨hl, hc, fun ht => absurd ht (by rw [hty]; simp)⟩
  rw [if_neg h11] at h
  by_cases h12 : is_ident_start s1.peek = true
  · rw [if_pos h12] at h
    simp only [Except.ok.injEq, Prod.mk.injEq, ident_or_keyword] at h
    obtain ⟨ty, hkt, hne⟩ := keyword_token_shape
      (String.mk (ident_loop s1.consume [s1.peek]).1) s1.line s1.column
    rw [hkt] at h
    rw [← h.1]
    exact ⟨rfl, rfl, fun ht => absurd ht (by simpa using hne)⟩
  rw [if_neg h12] at h
  exact absurd h (by simp)

/-- The only `unterminatedString` error `next_token_core` can produce
comes from the string branch, and it carries the line and column of the
state it classified — the opening quote's position. -/
theorem next_token_core_unterminated (s1 : LexerState) (l c : Nat)
    (h : next_token_core s1 = .error (LexError.unterminatedString l c)) :
    l = s1.line ∧ c = s1.column ∧ s1.peek = '"' := by
  simp only [next_token_core] at h
  by_cases h0 : s1.peek = '\x00'
  · rw [if_pos h0] at h; exact absurd h (by simp)
  rw [if_neg h0] at h
  by_cases h1 : s1.peek = '('
  · rw [if_pos h1] at h; exact absurd h (by simp)
  rw [if_neg h1] at h
  by_cases h2 : s1.peek = ')'
  · rw [if_pos h2] at h; exact absurd h (by simp)
  rw [if_neg h2] at h
  by_cases h3 : s1.peek = '+'
  · rw [if_pos h3] at h; exact absurd h (by simp)
  rw [if_neg h3] at h
  by_cases h4 : s1.peek = '-'
  · rw [if_pos h4] at h; exact absurd h (by simp)
  rw [if_neg h4] at h
  by_cases h5 : s1.peek = '*'
  · rw [if_pos h5] at h; exact absurd h (by simp)
  rw [if_neg h5] at h
  by_cases h6 : s1.peek = '/'
  · rw [if_pos h6] at h; exact absurd h (by simp)
  rw [if_neg h6] at h
  by_cases h7 : s1.peek = '='
  · rw [if_pos h7] at h; exact absurd h (by simp)
  rw [if_neg h7] at h
  by_cases h8 : s1.peek = '<'
  · rw [if_pos h8] at h; exact absurd h (by simp)
  rw [if_neg h8] at h
  by_cases h9 : s1.peek = '>'
  · rw [if_pos h9] at h; exact absurd h (by simp)
  rw [if_neg h9] at h
  by_cases h10 : s1.peek.isDigit = true
  · rw [if_pos h10] at h; exact absurd h (by simp [number_token])
  rw [if_neg h10] at h
  by_cases h11 : s1.peek = '"'
  · rw [if_pos h11] at h
    simp only [string_token, string_loop] at h
    have := string_loop_go_err _ _ _ _ _ _ h
    simp only [LexError.unterminatedString.injEq] at this
    exact ⟨this.1, this.2, h11⟩
  rw [if_neg h11] at h
  by_cases h12 : is_ident_start s1.peek = true
  · rw [if_pos h12] at h; exact absurd h (by simp [ident_or_keyword])
  rw [if_neg h12] at h
  simp only [Except.error.injEq] at h
  exact absurd h (by simp)

theorem peek_of_drop (s : LexerState) (ch : Char) (l : List Char)
    (h : s.text.drop s.pos = ch :: l) : s.peek = ch ∧ s.pos < s.text.length := by
  have hlt : s.pos < s.text.length := by
    by_contra hge
    rw [List.drop_eq_nil_of_le (Nat.le_of_not_lt hge)] at h
    exact absurd h (by simp)
  refine ⟨?_, hlt⟩
  unfold LexerState.peek
  rw [if_neg (by omega)]
  have h2 : s.text[s.pos]? = some ch := by
    rw [← List.head?_drop, h]
    rfl
  simp [List.getD, h2]

theorem drop_consume (s : LexerState) (ch : Char) (l : List Char)
    (h : s.text.drop s.pos = ch :: l) :
    s.consume.text.drop s.consume.pos = l := by
  obtain ⟨-, hlt⟩ := peek_of_drop s ch l h
  rw [consume_text, consume_pos_of_lt s hlt]
  have : s.text.drop (s.pos + 1) = (s.text.drop s.pos).drop 1 := by
    rw [List.drop_drop]
  rw [this, h]
  rfl

/-- Sufficient loop counts give `skip_whitespace_and_comments_go` the
same value: the count only has to cover the characters actually
consumed. -/
theorem skip_ws_go_fuel : ∀ (k k' : Nat) (s : LexerState),
    s.text.length - s.pos ≤ k → s.text.length - s.pos ≤ k' →
    skip_whitespace_and_comments_go k s =
      skip_whitespace_and_comments_go k' s := by
  intro k
  induction k with
  | zero =>
    intro k' s hb hb'
    have hp : s.peek = '\x00' := by
      unfold LexerState.peek
      rw [if_pos (by omega)]
    cases k' with
    | zero => rfl
    | succ k' =>
      simp only [skip_whitespace_and_comments_go]
      rw [if_neg (by rw [hp]; decide), if_neg (by rw [hp]; simp)]
  | succ k ih =>
    intro k' s hb hb'
    cases k' with
    | zero =>
      have hp : s.peek = '\x00' := by
        unfold LexerState.peek
        rw [if_pos (by omega)]
      simp only [skip_whitespace_and_comments_go]
      rw [if_neg (by rw [hp]; decide), if_neg (by rw [hp]; simp)]
    | succ k' =>
      simp only [skip_whitespace_and_comments_go]
      by_cases hws : is_ws s.peek
      · rw [if_pos hws, if_pos hws]
        have hlt : s.pos < s.text.length :=
          peek_ne_nul s (is_ws_ne_nul _ hws)
        have hc := consume_pos_of_lt s hlt
        have hct := consume_text s
        exact ih k' s.consume (by rw [hct, hc]; omega) (by rw [hct, hc]; omega)
      · rw [if_neg hws, if_neg hws]
        by_cases hcm : s.peek = ';' ∧ s.peek_next = ';'
        · rw [if_pos hcm, if_pos hcm]
          have hlt : s.pos < s.text.length :=
            peek_ne_nul s (by rw [hcm.1]; decide)
          have hm : (skip_comment s.consume.consume).text.length -
              (skip_comment s.consume.consume).pos ≤ s.text.length - s.pos - 1 := by
            have h1 := skip_comment_measure s.consume.consume
            have h2 := consume_pos_mono s.consume
            have h3 := consume_pos_of_lt s hlt
            have h4 : s.consume.consume.text.length = s.text.length := by
              rw [consume_text, consume_text]
            have h5 : s.consume.text.length = s.text.length := consume_text s ▸ rfl
            omega
          exact ih k' _ (by omega) (by omega)
        · rw [if_neg hcm, if_neg hcm]

theorem skip_ws_of_ws (s : LexerState) (h : is_ws s.peek = true) :
    skip_whitespace_and_comments s = skip_whitespace_and_comments s.consume := by
  have hlt : s.pos < s.text.length := peek_ne_nul s (is_ws_ne_nul _ h)
  unfold skip_whitespace_and_comments
  obtain ⟨j, hj⟩ : ∃ j, s.text.length - s.pos = j + 1 :=
    ⟨s.text.length - s.pos - 1, by omega⟩
  rw [hj]
  simp only [skip_whitespace_and_comments_go]
  rw [if_pos h]
  have hc := consume_pos_of_lt s hlt
  have hct := consume_text s
  apply skip_ws_go_fuel <;> (rw [hct, hc]; try omega)

theorem skip_ws_of_comment (s : LexerState) (h1 : is_ws s.peek = false)
    (h2 : s.peek = ';' ∧ s.peek_next = ';') :
    skip_whitespace_and_comments s =
      skip_whitespace_and_comments (skip_comment s.consume.consume) := by
  have hlt : s.pos < s.text.length := peek_ne_nul s (by rw [h2.1]; decide)
  unfold skip_whitespace_and_comments
  obtain ⟨j, hj⟩ : ∃ j, s.text.length - s.pos = j + 1 :=
    ⟨s.text.length - s.pos - 1, by omega⟩
  rw [hj]
  simp only [skip_whitespace_and_comments_go]
  rw [if_neg (by simp [h1]), if_pos h2]
  have hm : (skip_comment s.consume.consume).text.length -
      (skip_comment s.consume.consume).pos ≤ j := by
    have hq1 := skip_comment_measure s.consume.consume
    have hq2 := consume_pos_mono s.consume
    have hq3 := consume_pos_of_lt s hlt
    have hq4 : s.consume.consume.text.length = s.text.length := by
      rw [consume_text, consume_text]
    have hq5 : s.consume.text.length = s.text.length := consume_text s ▸ rfl
    omega
  apply skip_ws_go_fuel
  · omega
  · omega

theorem skip_ws_id (s : LexerState) (h1 : is_ws s.peek = false)
    (h2 : s.peek = ';' → False) :
    skip_whitespace_and_comments s = s := by
  unfold skip_whitespace_and_comments
  cases hk : s.text.length - s.pos with
  | zero => rfl
  | succ k =>
    simp only [skip_whitespace_and_comments_go]
    rw [if_neg (by simp [h1]), if_neg (by intro hc; exact h2 hc.1)]

/-- A comment body (no newline, no `'\x00'`) is consumed exactly up to
the following newline or end of input. -/
theorem skip_comment_munch : ∀ (body rest : List Char) (s : LexerState),
    (∀ ch ∈ body, ch ≠ '\n' ∧ ch ≠ '\x00') →
    (rest.head? = some '\n' ∨ rest = []) →
    s.text.drop s.pos = body ++ rest →
    (skip_comment s).pos = s.pos + body.length := by
  intro body
  induction body with
  | nil =>
    intro rest s hb hr hd
    simp only [List.nil_append] at hd
    unfold skip_comment
    rcases hr with hr | hr
    · rcases rest with _ | ⟨c0, rest'⟩
      · simp at hr
      · simp only [List.head?_cons, Option.some.injEq] at hr
        obtain ⟨hpk, hlt⟩ := peek_of_drop s c0 rest' hd
        cases hk : s.text.length - s.pos with
        | zero => simp [skip_comment_go]
        | succ k =>
          simp only [skip_comment_go]
          rw [if_neg (by rw [hpk, hr]; simp)]
          simp
    · rw [hr] at hd
      have hge : s.text.length ≤ s.pos := by
        by_contra hlt
        have := List.drop_eq_nil_iff.mp hd
        omega
      have hk : s.text.length - s.pos = 0 := by omega
      rw [hk]
      simp [skip_comment_go]
  | cons ch body' ih =>
    intro rest s hb hr hd
    obtain ⟨hpk, hlt⟩ := peek_of_drop s ch (body' ++ rest) (by simpa using hd)
    have hch := hb ch (by simp)
    unfold skip_comment
    obtain ⟨j, hj⟩ : ∃ j, s.text.length - s.pos = j + 1 :=
      ⟨s.text.length - s.pos - 1, by omega⟩
    rw [hj]
    simp only [skip_comment_go]
    rw [if_pos (by rw [hpk]; exact ⟨hch.1, hch.2⟩)]
    have hgo : skip_comment_go j s.consume = skip_comment s.consume := by
      unfold skip_comment
      have hc := consume_pos_of_lt s hlt
      have hct := consume_text s
      rw [hct, hc]
      congr 1
      omega
    rw [hgo]
    have hrec := ih rest s.consume (fun c hc => hb c (by simp [hc]))
      hr (drop_consume s ch (body' ++ rest) (by simpa using hd))
    rw [hrec, consume_pos_of_lt s hlt]
    simp [List.length_cons]
    omega

/-- The identifier loop collects exactly the identifier-part run in
front of the cursor. -/
theorem ident_loop_go_munch : ∀ (w : List Char), ∀ (rest : List Char)
    (k : Nat) (s : LexerState) (buf : List Char),
    (∀ ch ∈ w, is_ident_part ch = true) →
    (∀ ch, rest.head? = some ch → is_ident_part ch = false) →
    s.text.drop s.pos = w ++ rest →
    w.length ≤ k →
    (ident_loop_go k s buf).1 = buf ++ w := by
  intro w
  induction w with
  | nil =>
    intro rest k s buf hw hr hd hk
    simp only [List.nil_append] at hd
    have hnp : is_ident_part s.peek = false := by
      rcases rest with _ | ⟨c0, rest'⟩
      · have hge : s.text.length ≤ s.pos := by
          by_contra hlt
          have := List.drop_eq_nil_iff.mp hd
          omega
        have : s.peek = '\x00' := by
          unfold LexerState.peek
          rw [if_pos (by omega)]
        rw [this]
        decide
      · obtain ⟨hpk, -⟩ := peek_of_drop s c0 rest' hd
        rw [hpk]
        exact hr c0 rfl
    cases k with
    | zero => simp [ident_loop_go]
    | succ k =>
      simp only [ident_loop_go]
      rw [if_neg (by simp [hnp])]
      simp
  | cons ch w' ih =>
    intro rest k s buf hw hr hd hk
    obtain ⟨hpk, hlt⟩ := peek_of_drop s ch (w' ++ rest) (by simpa using hd)
    cases k with
    | zero => simp at hk
    | succ k =>
      simp only [ident_loop_go]
      rw [if_pos (by rw [hpk]; exact hw ch (by simp))]
      have := ih rest k s.consume (buf ++ [s.peek])
        (fun c hc => hw c (by simp [hc])) hr
        (drop_consume s ch (w' ++ rest) (by simpa using hd))
        (by simp at hk; omega)
      rw [this, hpk]
      simp

/-- Skipping over a whitespace/comment-only remainder reaches end of
input. -/
theorem skip_ws_wsonly : ∀ (cs : List Char), WsOnly cs →
    ∀ s : LexerState, s.text.drop s.pos = cs → s.pos ≤ s.text.length →
    (skip_whitespace_and_comments s).pos = s.text.length ∧
      (skip_whitespace_and_comments s).text = s.text := by
  intro cs hws
  induction hws with
  | nil =>
    intro s hd hb
    have hge : s.text.length ≤ s.pos := by
      by_contra hlt
      have := List.drop_eq_nil_iff.mp hd
      omega
    have hk : s.text.length - s.pos = 0 := by omega
    unfold skip_whitespace_and_comments
    rw [hk]
    simp only [skip_whitespace_and_comments_go]
    exact ⟨by omega, trivial⟩
  | ws c cs hc hcs ih =>
    intro s hd hb
    obtain ⟨hpk, hlt⟩ := peek_of_drop s c cs hd
    rw [skip_ws_of_ws s (by rw [hpk]; exact hc)]
    have hdc := drop_consume s c cs hd
    have hcp := consume_pos_of_lt s hlt
    have hct := consume_text s
    have := ih s.consume hdc (by rw [hct, hcp]; omega)
    rw [hct] at this
    exact this
  | comment body cs hbody hhead hcs ih =>
    intro s hd hb
    obtain ⟨hpk, hlt⟩ := peek_of_drop s ';' (';' :: (body ++ cs)) hd
    have hd2 : s.consume.text.drop s.consume.pos = ';' :: (body ++ cs) :=
      drop_consume s ';' _ hd
    obtain ⟨hpk2, hlt2⟩ := peek_of_drop s.consume ';' (body ++ cs) hd2
    have hpn : s.peek_next = ';' := by
      have hc := consume_pos_of_lt s hlt
      have hct := consume_text s
      unfold LexerState.peek_next
      unfold LexerState.peek at hpk2
      rw [hct, hc] at hpk2
      exact hpk2
    have hnws : is_ws s.peek = false := by rw [hpk]; decide
    rw [skip_ws_of_comment s hnws ⟨hpk, hpn⟩]
    have hd3 : s.consume.consume.text.drop s.consume.consume.pos =
        body ++ cs := drop_consume s.consume ';' _ hd2
    have hmunch := skip_comment_munch body cs s.consume.consume hbody hhead hd3
    -- the state after the comment: its remaining text is `cs`
    have htx : (skip_comment s.consume.consume).text = s.text := by
      rw [skip_comment_text, consume_text, consume_text]
    have hdrop : (skip_comment s.consume.consume).text.drop
        (skip_comment s.consume.consume).pos = cs := by
      rw [htx, hmunch]
      have : s.text.drop (s.consume.consume.pos + body.length) =
          (s.consume.consume.text.drop s.consume.consume.pos).drop body.length := by
        rw [consume_text, consume_text, List.drop_drop]
        try congr 1
        try omega
      rw [this, hd3]
      simp
    have hlen : s.consume.consume.text.length - s.consume.consume.pos =
        body.length + cs.length := by
      have := congrArg List.length hd3
      simpa using this
    have hbound : (skip_comment s.consume.consume).pos ≤
        (skip_comment s.consume.consume).text.length := by
      have hcc : s.consume.consume.pos ≤ s.consume.consume.text.length := by
        have := consume_pos_of_lt s.consume hlt2
        rw [consume_text]
        omega
      rw [hmunch, skip_comment_text]
      omega
    have hfin := ih (skip_comment s.consume.consume) hdrop hbound
    rw [htx] at hfin
    exact hfin

theorem ident_start_not_digit (c : Char) (h : is_ident_start c = true) :
    c.isDigit = false := by
  simp [is_ident_start] at h
  rcases h with h | h
  · simp only [Char.isAlpha, Char.isUpper, Char.isLower, Bool.or_eq_true,
      Bool.and_eq_true, decide_eq_true_eq, ge_iff_le] at h
    simp only [Char.isDigit, Bool.and_eq_false_iff, decide_eq_false_iff_not,
      not_le, ge_iff_le]
    simp only [UInt32.le_def, UInt32.lt_def, BitVec.le_def, BitVec.lt_def] at *
    rcases h with ⟨h1, h2⟩ | ⟨h1, h2⟩ <;> [right; right] <;>
      simp_all <;> omega
  · subst h
    decide

theorem is_ws_not_ident_start (c : Char) (h : is_ws c = true) :
    is_ident_start c = false := by
  simp [is_ws] at h
  rcases h with ((h | h) | h) | h <;> subst h <;> decide

/-- On an identifier-start character, `next_token_core` reaches the
identifier branch. -/
theorem next_token_core_ident (s1 : LexerState)
    (h : is_ident_start s1.peek = true) :
    next_token_core s1 = .ok (ident_or_keyword s1 s1.line s1.column) := by
  have hne : ∀ x : Char, is_ident_start x = false → s1.peek ≠ x := by
    intro x hx heq
    rw [heq, hx] at h
    exact absurd h (by simp)
  simp only [next_token_core]
  rw [if_neg (hne _ (by decide)), if_neg (hne _ (by decide)),
    if_neg (hne _ (by decide)), if_neg (hne _ (by decide)),
    if_neg (hne _ (by decide)), if_neg (hne _ (by decide)),
    if_neg (hne _ (by decide)), if_neg (hne _ (by decide)),
    if_neg (hne _ (by decide)), if_neg (hne _ (by decide)),
    if_neg (by simp [ident_start_not_digit s1.peek h]),
    if_neg (hne _ (by decide)), if_pos h]

/-- `next_token` at (effective) end of input: the `EOF` token carrying
the skipped state's position, and that state unchanged. -/
theorem next_token_at_end (s : LexerState)
    (h : (skip_whitespace_and_comments s).text.length ≤
      (skip_whitespace_and_comments s).pos) :
    next_token s = .ok
      (⟨TokenType.EOF, "<EOF>", (skip_whitespace_and_comments s).line,
        (skip_whitespace_and_comments s).column⟩,
       skip_whitespace_and_comments s) := by
  have hp : (skip_whitespace_and_comments s).peek = '\x00' := by
    unfold LexerState.peek
    rw [if_pos (by omega)]
  unfold next_token
  simp only [next_token_core]
  rw [if_pos hp]

theorem parse_program_treeOk (fuel : Nat) (ts : List Token) (n : Node)
    (ts' : List Token) (h : parse_program fuel ts = .ok n ts') :
    treeOk n = true := by
  unfold parse_program at h
  split at h
  · rename_i exprs rest heq
    simp only [PResult.ok.injEq] at h
    rw [← h.1]
    obtain ⟨-, -, -, -, -, -, -, -, -, -, -, hprog⟩ := parse_inv fuel
    apply treeOk_mk_of _ _ _ (by decide) (by decide) (by decide)
    exact List.all_eq_true.mpr (hprog _ _ _ heq)
  · exact absurd h (by simp)
  · exact absurd h (by simp)

theorem parse_source_tree (input : String) (t : Node)
    (h : parse_source input = .tree t) :
    ∃ ts ts', tokenize_str input = .ok ts ∧
      parse_program (10 * ts.length + 10) ts = .ok t ts' := by
  unfold parse_source at h
  split at h
  · exact absurd h (by simp)
  · rename_i ts heq
    split at h
    · rename_i n rest heq2
      simp only [ParseOutcome.tree.injEq] at h
      exact ⟨ts, rest, heq, by rw [← h]; exact heq2⟩
    · exact absurd h (by simp)
    · exact absurd h (by simp)

theorem parse_source_treeOk (input : String) (t : Node)
    (h : parse_source input = .tree t) : treeOk t = true := by
  obtain ⟨ts, ts', -, hp⟩ := parse_source_tree input t h
  exact parse_program_treeOk _ _ _ _ hp

/-- C1: for every finite input, `tokenize` terminates (it is a total
function of this embedding, with every scanning loop bounded by the
characters it consumes) and either raises a lexical error, returning no
sequence, or returns a finite token list containing exactly one
`EndOfInput` token, which is its last element. -/
theorem c1_tokenize_exactly_one_eof (s : LexerState) (ts : List Token)
    (h : tokenize s = .ok ts) :
    ∃ front final, ts = front ++ [final] ∧ final.type = TokenType.EOF ∧
      ∀ t ∈ front, t.type ≠ TokenType.EOF :=
  tokenize_ok_eof s ts h

/-- Witness for C1 on the input `(+ 1)`. -/
theorem c1_tokenize_exactly_one_eof_witness :
    ∃ front final,
      [⟨TokenType.LPAREN, "(", 1, 1⟩, ⟨TokenType.PLUS, "+", 1, 2⟩,
       ⟨TokenType.INT, "1", 1, 4⟩, ⟨TokenType.RPAREN, ")", 1, 5⟩,
       (⟨TokenType.EOF, "<EOF>", 1, 6⟩ : Token)] = front ++ [final] ∧
      final.type = TokenType.EOF ∧ ∀ t ∈ front, t.type ≠ TokenType.EOF :=
  c1_tokenize_exactly_one_eof (LexerState.init "(+ 1)") _ (by decide)

/-- C2: every node in a `Program` tree returned by the full parse
satisfies the structural arity invariants: a `ListExpr` node has
exactly 1 child, and a `DefnExpr` node has exactly 2 children, the
first a `ParamList` node all of whose children are `Param` nodes (the
second being the body), with the function name stored as the node's
value. -/
theorem c2_structural_arity (input : String) (t : Node)
    (h : parse_source input = .tree t) :
    ∀ m ∈ t.nodes,
      (m.kind = "ListExpr" → m.children.length = 1) ∧
      (m.kind = "DefnExpr" →
        m.children.length = 2 ∧ m.value.isSome = true ∧
        ∃ p rest, m.children = p :: rest ∧ p.kind = "ParamList" ∧
          ∀ q ∈ p.children, q.kind = "Param") := by
  intro m hm
  have hinv := treeOk_mem t (parse_source_treeOk input t h) m hm
  exact ⟨nodeInv_listExpr m hinv, nodeInv_defnExpr m hinv⟩

/-- Witness for C2 on the `DefnExpr` node of `(defn f () 1)`. -/
theorem c2_structural_arity_witness :
    ((Node.mk "DefnExpr" (some "f")
        [Node.mk "ParamList" none [],
         Node.mk "IntLiteral" (some "1") []]).kind = "ListExpr" →
      (Node.mk "DefnExpr" (some "f")
        [Node.mk "ParamList" none [],
         Node.mk "IntLiteral" (some "1") []]).children.length = 1) ∧
    ((Node.mk "DefnExpr" (some "f")
        [Node.mk "ParamList" none [],
         Node.mk "IntLiteral" (some "1") []]).kind = "DefnExpr" →
      (Node.mk "DefnExpr" (some "f")
        [Node.mk "ParamList" none [],
         Node.mk "IntLiteral" (some "1") []]).children.length = 2 ∧
      (Node.mk "DefnExpr" (some "f")
        [Node.mk "ParamList" none [],
         Node.mk "IntLiteral" (some "1") []]).value.isSome = true ∧
      ∃ p rest,
        (Node.mk "DefnExpr" (some "f")
          [Node.mk "ParamList" none [],
           Node.mk "IntLiteral" (some "1") []]).children = p :: rest ∧
        p.kind = "ParamList" ∧ ∀ q ∈ p.children, q.kind = "Param") :=
  c2_structural_arity "(defn f () 1)"
    (Node.mk "Program" none [Node.mk "ListExpr" none
      [Node.mk "DefnExpr" (some "f")
        [Node.mk "ParamList" none [],
         Node.mk "IntLiteral" (some "1") []]]])
    (by decide) _ (by decide)

/-- C3: when parsing an if-form, the else branch is parsed if and only
if the token following the then branch is not `)`; the resulting
`IfExpr` node has exactly the children condition and then branch, plus
the else branch in the first case.  On the input
`(if (< n 10) (print 1) (print 2))` the parse yields a `ListExpr` whose
single child is an `IfExpr` with exactly 3 children, each a
`ListExpr`. -/
theorem c3_if_else_branch :
    (∀ fuel ts n ts', parse_if_expr (fuel+1) ts = .ok n ts' →
      ∃ tokIf ts0 cond ts1 thn ts2,
        pmatch TokenType.IF ts = .ok (tokIf, ts0) ∧
        parse_expr fuel ts0 = .ok cond ts1 ∧
        parse_expr fuel ts1 = .ok thn ts2 ∧
        ((lookahead ts2).type ≠ TokenType.RPAREN →
          ∃ els ts3, parse_expr fuel ts2 = .ok els ts3 ∧
            n = Node.mk "IfExpr" none [cond, thn, els] ∧ ts' = ts3) ∧
        ((lookahead ts2).type = TokenType.RPAREN →
          n = Node.mk "IfExpr" none [cond, thn] ∧ ts' = ts2)) ∧
    parse_source "(if (< n 10) (print 1) (print 2))" = .tree
      (Node.mk "Program" none [Node.mk "ListExpr" none [Node.mk "IfExpr" none
        [Node.mk "ListExpr" none [Node.mk "AppExpr" (some "<")
           [Node.mk "Identifier" (some "n") [],
            Node.mk "IntLiteral" (some "10") []]],
         Node.mk "ListExpr" none [Node.mk "AppExpr" (some "print")
           [Node.mk "IntLiteral" (some "1") []]],
         Node.mk "ListExpr" none [Node.mk "AppExpr" (some "print")
           [Node.mk "IntLiteral" (some "2") []]]]]]) := by
  constructor
  · intro fuel ts n ts' h
    simp only [parse_if_expr] at h
    split at h
    · exact absurd h (by simp)
    · rename_i tokIf ts0 heq0
      split at h
      · rename_i cond ts1 heq1
        split at h
        · rename_i thn ts2 heq2
          split at h
          · rename_i hne
            split at h
            · rename_i els ts3 heq3
              simp only [PResult.ok.injEq] at h
              exact ⟨tokIf, ts0, cond, ts1, thn, ts2, heq0, heq1, heq2,
                fun _ => ⟨els, ts3, heq3, h.1.symm, h.2.symm⟩,
                fun hrp => absurd hrp hne⟩
            · exact absurd h (by simp)
            · exact absurd h (by simp)
          · rename_i hrp
            simp only [PResult.ok.injEq] at h
            exact ⟨tokIf, ts0, cond, ts1, thn, ts2, heq0, heq1, heq2,
              fun hne => absurd (not_not.mp hrp) hne,
              fun _ => ⟨h.1.symm, h.2.symm⟩⟩
        · exact absurd h (by simp)
        · exact absurd h (by simp)
      · exact absurd h (by simp)
      · exact absurd h (by simp)
  · decide

/-- Witness for C3 on the token stream of `if 1 2 3)`. -/
theorem c3_if_else_branch_witness :
    ∃ tokIf ts0 cond ts1 thn ts2,
      pmatch TokenType.IF
        [⟨TokenType.IF, "if", 1, 2⟩, ⟨TokenType.INT, "1", 1, 4⟩,
         ⟨TokenType.INT, "2", 1, 6⟩, ⟨TokenType.INT, "3", 1, 8⟩,
         ⟨TokenType.RPAREN, ")", 1, 9⟩, ⟨TokenType.EOF, "<EOF>", 1, 10⟩] =
        .ok (tokIf, ts0) ∧
      parse_expr 5 ts0 = .ok cond ts1 ∧
      parse_expr 5 ts1 = .ok thn ts2 ∧
      ((lookahead ts2).type ≠ TokenType.RPAREN →
        ∃ els ts3, parse_expr 5 ts2 = .ok els ts3 ∧
          Node.mk "IfExpr" none
            [Node.mk "IntLiteral" (some "1") [],
             Node.mk "IntLiteral" (some "2") [],
             Node.mk "IntLiteral" (some "3") []] =
            Node.mk "IfExpr" none [cond, thn, els] ∧
          [⟨TokenType.RPAREN, ")", 1, 9⟩,
           (⟨TokenType.EOF, "<EOF>", 1, 10⟩ : Token)] = ts3) ∧
      ((lookahead ts2).type = TokenType.RPAREN →
        Node.mk "IfExpr" none
          [Node.mk "IntLiteral" (some "1") [],
           Node.mk "IntLiteral" (some "2") [],
           Node.mk "IntLiteral" (some "3") []] =
          Node.mk "IfExpr" none [cond, thn] ∧
        [⟨TokenType.RPAREN, ")", 1, 9⟩,
         (⟨TokenType.EOF, "<EOF>", 1, 10⟩ : Token)] = ts2) :=
  c3_if_else_branch.1 5 _ _ _ (by decide)

/-- C4: parsing `(do)` raises the syntax error `mindestens einen
Ausdruck erwartet` (at least one expression expected) and never
produces a `DoExpr` node, and in every tree the parser returns, every
`DoExpr` node has at least one child. -/
theorem c4_do_nonempty :
    parse_source "(do)" = .synFail
      ⟨"mindestens einen Ausdruck erwartet",
       ⟨TokenType.RPAREN, ")", 1, 4⟩⟩ ∧
    (∀ input t, parse_source input = .tree t →
      ∀ m ∈ t.nodes, m.kind = "DoExpr" → m.children ≠ []) := by
  refine ⟨by decide, ?_⟩
  intro input t h m hm hk
  exact nodeInv_doExpr m (treeOk_mem t (parse_source_treeOk input t h) m hm) hk

/-- Witness for C4 on the `DoExpr` node of `(do 1)`. -/
theorem c4_do_nonempty_witness :
    (Node.mk "DoExpr" none [Node.mk "IntLiteral" (some "1") []]).children ≠ [] :=
  c4_do_nonempty.2 "(do 1)"
    (Node.mk "Program" none [Node.mk "ListExpr" none
      [Node.mk "DoExpr" none [Node.mk "IntLiteral" (some "1") []]]])
    (by decide) _ (by decide) rfl

/-- C5: whenever `next_token` raises the unterminated-string error, the
reported line and column are those of the state right after whitespace
skipping — the position of the string's opening quote (that state's
lookahead is the quote itself) — and on `"abc` the error reports 1:1,
the opening quote, not the end-of-input position 1:5. -/
theorem c5_unterminated_string_position :
    (∀ (s : LexerState) (l c : Nat),
      next_token s = .error (LexError.unterminatedString l c) →
      l = (skip_whitespace_and_comments s).line ∧
      c = (skip_whitespace_and_comments s).column ∧
      (skip_whitespace_and_comments s).peek = '"') ∧
    tokenize_str "\"abc" = .error (LexError.unterminatedString 1 1) := by
  constructor
  · intro s l c h
    unfold next_token at h
    exact next_token_core_unterminated _ _ _ h
  · decide

/-- Witness for C5 on the input `"abc`. -/
theorem c5_unterminated_string_position_witness :
    1 = (skip_whitespace_and_comments (LexerState.init "\"abc")).line ∧
    1 = (skip_whitespace_and_comments (LexerState.init "\"abc")).column ∧
    (skip_whitespace_and_comments (LexerState.init "\"abc")).peek = '"' :=
  c5_unterminated_string_position.1 (LexerState.init "\"abc") 1 1 (by decide)

/-- C6: parsing `(+ 1 2` raises a syntax error whose message says
`)` (RPAREN) was expected and whose found token is the `EndOfInput`
token; no partial AST is returned (the outcome is `synFail`, not
`tree`). -/
theorem c6_missing_rparen_error :
    parse_source "(+ 1 2" = .synFail
      ⟨"erwartet " ++ TokenType.RPAREN.name,
       ⟨TokenType.EOF, "<EOF>", 1, 7⟩⟩ := by
  decide

/-- C7: a maximal identifier-shaped lexeme is classified by the keyword
table: `next_token` returns `keyword_token` of exactly that lexeme
(with the position captured at its start), and the table sends each of
the thirteen reserved words to its dedicated kind — `true`/`false` to
`BOOL` with the lexeme preserved as written — and every other word to
`IDENT`, never a reserved word to `IDENT`. -/
theorem c7_keyword_classification :
    (∀ (c0 : Char) (w' rest : List Char) (line col : Nat),
      is_ident_start c0 = true →
      (∀ ch ∈ w', is_ident_part ch = true) →
      (∀ ch, rest.head? = some ch → is_ident_part ch = false) →
      ∃ s', next_token ⟨c0 :: (w' ++ rest), 0, line, col⟩ =
        .ok (keyword_token (String.mk (c0 :: w')) line col, s')) ∧
    (∀ l c : Nat,
      keyword_token "if" l c = ⟨TokenType.IF, "if", l, c⟩ ∧
      keyword_token "do" l c = ⟨TokenType.DO, "do", l, c⟩ ∧
      keyword_token "def" l c = ⟨TokenType.DEF, "def", l, c⟩ ∧
      keyword_token "defn" l c = ⟨TokenType.DEFN, "defn", l, c⟩ ∧
      keyword_token "let" l c = ⟨TokenType.LET, "let", l, c⟩ ∧
      keyword_token "print" l c = ⟨TokenType.PRINT, "print", l, c⟩ ∧
      keyword_token "str" l c = ⟨TokenType.STRFN, "str", l, c⟩ ∧
      keyword_token "list" l c = ⟨TokenType.LISTFN, "list", l, c⟩ ∧
      keyword_token "nth" l c = ⟨TokenType.NTH, "nth", l, c⟩ ∧
      keyword_token "head" l c = ⟨TokenType.HEAD, "head", l, c⟩ ∧
      keyword_token "tail" l c = ⟨TokenType.TAIL, "tail", l, c⟩ ∧
      keyword_token "true" l c = ⟨TokenType.BOOL, "true", l, c⟩ ∧
      keyword_token "false" l c = ⟨TokenType.BOOL, "false", l, c⟩) ∧
    (∀ (w : String) (l c : Nat),
      w ∉ (["if", "do", "def", "defn", "let", "print", "str", "list",
            "nth", "head", "tail", "true", "false"] : List String) →
      keyword_token w l c = ⟨TokenType.IDENT, w, l, c⟩) := by
  refine ⟨?_, ?_, ?_⟩
  · intro c0 w' rest line col h0 hw hr
    set s : LexerState := ⟨c0 :: (w' ++ rest), 0, line, col⟩ with hs
    have hlen : 0 < s.text.length := by rw [hs]; simp
    have hpk : s.peek = c0 := by
      rw [hs]
      unfold LexerState.peek
      simp
    have hws : is_ws s.peek = false := by
      rw [hpk]
      cases hiw : is_ws c0 with
      | false => rfl
      | true => exact absurd h0 (by simp [is_ws_not_ident_start c0 hiw])
    have hsemi : s.peek = ';' → False := by
      rw [hpk]
      intro he
      rw [he] at h0
      exact absurd h0 (by decide)
    have hskip : skip_whitespace_and_comments s = s := skip_ws_id s hws hsemi
    have hdrop : s.consume.text.drop s.consume.pos = w' ++ rest := by
      apply drop_consume s c0 (w' ++ rest)
      rw [hs]
      simp
    have hb : w'.length ≤ s.consume.text.length - s.consume.pos := by
      have h1 := consume_pos_of_lt s hlen
      rw [consume_text, h1, hs]
      simp
    have hm := ident_loop_go_munch w' rest
      (s.consume.text.length - s.consume.pos) s.consume [s.peek] hw hr hdrop hb
    have hm2 : (ident_loop s.consume [s.peek]).1 = [s.peek] ++ w' := by
      rw [ident_loop]
      exact hm
    refine ⟨(ident_loop s.consume [s.peek]).2, ?_⟩
    unfold next_token
    rw [hskip, next_token_core_ident s (by rw [hpk]; exact h0)]
    simp only [ident_or_keyword]
    rw [hm2, hpk]
    simp
  · intro l c
    exact ⟨rfl, rfl, rfl, rfl, rfl, rfl, rfl, rfl, rfl, rfl, rfl, rfl, rfl⟩
  · intro w l c hmem
    simp only [List.mem_cons, List.not_mem_nil, or_false] at hmem
    push_neg at hmem
    obtain ⟨n1, n2, n3, n4, n5, n6, n7, n8, n9, n10, n11, n12, n13⟩ := hmem
    unfold keyword_token
    rw [if_neg n1, if_neg n2, if_neg n3, if_neg n4, if_neg n5, if_neg n6,
      if_neg n7, if_neg n8, if_neg n9, if_neg n10, if_neg n11,
      if_neg (fun h => h.elim n12 n13)]

/-- Witness for C7 on the lexeme `head` followed by a space. -/
theorem c7_keyword_classification_witness :
    ∃ s', next_token ⟨'h' :: (['e', 'a', 'd'] ++ [' ', 'x']), 0, 1, 1⟩ =
      .ok (keyword_token (String.mk ('h' :: ['e', 'a', 'd'])) 1 1, s') :=
  c7_keyword_classification.1 'h' ['e', 'a', 'd'] [' ', 'x'] 1 1
    (by decide) (by decide) (by decide)

/-- C8: each consumed character advances the column by 1 except a
newline, which resets the column to 1 and advances the line; a token's
recorded line and column are those of the state captured after the skip
phase, before its first character is consumed; and on the input of two
newlines, two spaces and `(`, the `(` token reports line 3, column 3. -/
theorem c8_position_tracking :
    (∀ s : LexerState, s.pos < s.text.length →
      (s.text.getD s.pos '\x00' = '\n' →
        s.consume = ⟨s.text, s.pos + 1, s.line + 1, 1⟩) ∧
      (s.text.getD s.pos '\x00' ≠ '\n' →
        s.consume = ⟨s.text, s.pos + 1, s.line, s.column + 1⟩)) ∧
    (∀ s t s', next_token s = .ok (t, s') →
      t.line = (skip_whitespace_and_comments s).line ∧
      t.column = (skip_whitespace_and_comments s).column) ∧
    tokenize_str "\n\n  (" = .ok
      [⟨TokenType.LPAREN, "(", 3, 3⟩, ⟨TokenType.EOF, "<EOF>", 3, 4⟩] := by
  refine ⟨?_, ?_, by decide⟩
  · intro s hlt
    constructor
    · intro hnl
      unfold LexerState.consume
      rw [if_neg (by omega), if_pos hnl]
    · intro hnl
      unfold LexerState.consume
      rw [if_neg (by omega), if_neg hnl]
  · intro s t s' h
    unfold next_token at h
    exact ⟨(next_token_core_token _ _ _ h).1, (next_token_core_token _ _ _ h).2.1⟩

/-- Witness for C8: a concrete newline consumption and the `(` token of
the input `"  ("`. -/
theorem c8_position_tracking_witness :
    (⟨['\n', 'a'], 0, 5, 7⟩ : LexerState).consume = ⟨['\n', 'a'], 1, 6, 1⟩ ∧
    ((⟨TokenType.LPAREN, "(", 1, 3⟩ : Token).line =
        (skip_whitespace_and_comments (LexerState.init "  (")).line ∧
      (⟨TokenType.LPAREN, "(", 1, 3⟩ : Token).column =
        (skip_whitespace_and_comments (LexerState.init "  (")).column) :=
  ⟨(c8_position_tracking.1 ⟨['\n', 'a'], 0, 5, 7⟩ (by decide)).1 (by decide),
   c8_position_tracking.2.1 (LexerState.init "  (")
     ⟨TokenType.LPAREN, "(", 1, 3⟩ ⟨"  (".data, 3, 1, 4⟩ (by decide)⟩

/-- C9: for every input consisting only of whitespace characters and
`;;` line comments, `tokenize` returns exactly one token, the
`EndOfInput` token with lexeme `<EOF>`. -/
theorem c9_ws_comments_only (input : String) (h : WsOnly input.data) :
    ∃ l c, tokenize_str input = .ok [⟨TokenType.EOF, "<EOF>", l, c⟩] := by
  obtain ⟨hp, htx⟩ := skip_ws_wsonly input.data h (LexerState.init input)
    (by simp [LexerState.init]) (by simp [LexerState.init])
  have hend : (skip_whitespace_and_comments
      (LexerState.init input)).text.length ≤
      (skip_whitespace_and_comments (LexerState.init input)).pos := by
    rw [hp, htx]
  have hnt := next_token_at_end (LexerState.init input) hend
  refine ⟨(skip_whitespace_and_comments (LexerState.init input)).line,
    (skip_whitespace_and_comments (LexerState.init input)).column, ?_⟩
  unfold tokenize_str tokenize
  have hk : (LexerState.init input).text.length -
      (LexerState.init input).pos + 1 =
      (LexerState.init input).text.length + 1 := by
    simp [LexerState.init]
  rw [hk]
  simp only [tokenize_go, hnt]
  simp

/-- Witness for C9 on the input `"  ;; hi\n "`. -/
theorem c9_ws_comments_only_witness :
    ∃ l c, tokenize_str "  ;; hi\n " =
      .ok [⟨TokenType.EOF, "<EOF>", l, c⟩] :=
  c9_ws_comments_only "  ;; hi\n "
    (WsOnly.ws ' ' _ (by decide)
      (WsOnly.ws ' ' _ (by decide)
        (WsOnly.comment [' ', 'h', 'i'] ['\n', ' '] (by decide)
          (Or.inl rfl)
          (WsOnly.ws '\n' _ (by decide)
            (WsOnly.ws ' ' _ (by decide) WsOnly.nil)))))

/-- C10: calling `next_token` again after it returned an `EndOfInput`
token never raises an error: it returns the same `EndOfInput` token
(same line and column) and the same lexer state — pulling past end of
input is a no-op for every lexer state. -/
theorem c10_next_token_after_eof (s : LexerState) (t : Token)
    (s' : LexerState) (h : next_token s = .ok (t, s'))
    (ht : t.type = TokenType.EOF) :
    next_token s' = .ok (t, s') := by
  unfold next_token at h
  obtain ⟨-, -, hEOF⟩ := next_token_core_token _ _ _ h
  obtain ⟨hpk, htok, hs'⟩ := hEOF ht
  subst hs'
  subst htok
  have hskip := skip_ws_id (skip_whitespace_and_comments s)
    (by rw [hpk]; decide)
    (by intro he; rw [hpk] at he; exact absurd he (by decide))
  unfold next_token
  rw [hskip]
  simp only [next_token_core]
  rw [if_pos hpk]

/-- Witness for C10 on the empty input. -/
theorem c10_next_token_after_eof_witness :
    next_token ⟨[], 0, 1, 1⟩ =
      .ok (⟨TokenType.EOF, "<EOF>", 1, 1⟩, (⟨[], 0, 1, 1⟩ : LexerState)) :=
  c10_next_token_after_eof ⟨[], 0, 1, 1⟩ ⟨TokenType.EOF, "<EOF>", 1, 1⟩
    ⟨[], 0, 1, 1⟩ (by decide) (by decide)
